import Mathlib

/-
  Verification development for the trace-processing stage of the
  A2A-distributed-tracing repository (src/utils/otel_exporter.py).

  The embedding models:
  - the span data model (RSpan), with spans carrying a span id, an optional
    parent id, a name, timestamps, attributes, links, and two capability
    flags that model whether the underlying Python object exposes the
    mutable fields _parent and _links (hasattr probing in the source);
  - the attribute annotator TraceModifyingSpanProcessor.on_end;
  - the pattern matcher (should_filter_span, compile_filter_patterns);
  - the trace restructurer (restructure_trace_spans together with the inner
    find_nearest_non_filtered_ancestor walk);
  - the subtree-removal policy and the exporter front end
    (ModifyingSpanExporter.export, _export_spans).

  Python dictionaries are modeled as association lists with unique keys
  (PMap); Python sets of span ids are modeled as lists of ids used only
  through membership; regular-expression compilation and searching is
  modeled by an abstract oracle of type String to Option (String to Bool),
  since the regex engine is an external library.
-/

/-- Attribute values stored in a span attribute map.  durationMs carries the
exact rational value of the Python float division (end - start) / 1e6;
spanRef n models the diagnostic string formatting of span id n in hex. -/
inductive AttrVal where
  | str (s : String)
  | rat (q : ℚ)
  | spanRef (n : Nat)
  deriving DecidableEq, Repr

/-- Model of an OpenTelemetry ReadableSpan as used by otel_exporter.py.
sid models span.context.span_id; parent models the span id of the parent
context (none when the span is a root); hasParentAttr and hasLinksAttr model
the hasattr probes used by the three-tier reparenting fallback, and
linksIsList models the isinstance(span._links, list) check. -/
structure RSpan where
  sid : Nat
  parent : Option Nat
  name : String
  startTime : Option Int
  endTime : Option Int
  attributes : List (String × AttrVal)
  links : List Nat
  hasParentAttr : Bool := true
  hasLinksAttr : Bool := true
  linksIsList : Bool := true
  deriving DecidableEq, Repr

/-- Association-list model of the Python dict used for parent_map:
child span id to parent span id. -/
abbrev PMap : Type := List (Nat × Nat)

/-- Dict lookup: parent_map.get(k). -/
def pget : PMap → Nat → Option Nat
  | [], _ => none
  | e :: m, k => if e.1 = k then some e.2 else pget m k

/-- Dict assignment: parent_map[k] = v.  Replaces the binding in place when
the key is present (Python dicts keep insertion order), appends otherwise. -/
def pset : PMap → Nat → Nat → PMap
  | [], k, v => [(k, v)]
  | e :: m, k, v => if e.1 = k then (k, v) :: m else e :: pset m k v

/-- The keys of a parent map. -/
def pkeys (m : PMap) : List Nat := m.map Prod.fst

/-- The values of a parent map. -/
def pvals (m : PMap) : List Nat := m.map Prod.snd

/-- Attribute-map assignment: span._attributes[k] = v. -/
def aset (attrs : List (String × AttrVal)) (k : String) (v : AttrVal) :
    List (String × AttrVal) :=
  match attrs with
  | [] => [(k, v)]
  | e :: rest => if e.1 = k then (k, v) :: rest else e :: aset rest k v

/-- Attribute-map lookup, used to state properties of the annotator. -/
def aget : List (String × AttrVal) → String → Option AttrVal
  | [], _ => none
  | e :: rest, k => if e.1 = k then some e.2 else aget rest k

/-- Python truthiness of an optional integer timestamp: None and 0 are falsy. -/
def truthyTime : Option Int → Bool
  | none => false
  | some t => t ≠ 0

/-- TraceModifyingSpanProcessor.on_end from otel_exporter.py.  env and ver
model the values of the ENVIRONMENT and SERVICE_VERSION variables (with the
source defaults applied by the caller).  The duration attribute is added
whenever both timestamps are truthy; the source has no end-before-start
check, so the value may be negative. -/
def on_end (env ver : String) (span : RSpan) : RSpan :=
  let a0 := aset span.attributes "deployment.environment" (AttrVal.str env)
  let a1 := aset a0 "service.version" (AttrVal.str ver)
  let a2 := aset a1 "custom.processor" (AttrVal.str "trace_modifier")
  let a3 := if span.name.startsWith "google_adk"
    then aset a2 "agent.type" (AttrVal.str "google_adk") else a2
  let a4 := if truthyTime span.endTime ∧ truthyTime span.startTime then
      match span.endTime, span.startTime with
      | some e, some s => aset a3 "duration_ms" (AttrVal.rat ((e - s : ℚ) / 1000000))
      | _, _ => a3
    else a3
  { span with attributes := a4 }

/-- should_filter_span from otel_exporter.py.  A compiled regex pattern is
modeled as its search predicate on the span name. -/
def should_filter_span (span : RSpan) (filter_patterns : List (String → Bool)) : Bool :=
  if filter_patterns.isEmpty then false
  else filter_patterns.any (fun p => p span.name)

/-- ModifyingSpanExporter._compile_filter_patterns.  compile models
re.compile as an oracle returning none exactly when compilation raises
re.error; such patterns are skipped. -/
def compile_filter_patterns (compile : String → Option (String → Bool))
    (pattern_strings : List String) : List (String → Bool) :=
  pattern_strings.filterMap compile

/-- Build the complete parent map from all spans, as in the first loop of
restructure_trace_spans: an entry is added only when the parent context and
its span id are truthy (a zero parent id is treated as absent). -/
def buildParentMap (spans : List RSpan) : PMap :=
  spans.foldl
    (fun m span =>
      match span.parent with
      | some p => if p ≠ 0 then pset m span.sid p else m
      | none => m)
    []

/-- The body of find_nearest_non_filtered_ancestor: walk the parent chain
upward from current, with a visited set for cycle protection, returning the
first ancestor that is neither filtered nor missing from the kept set.
The Python while loop has no fuel; the fuel argument makes the recursion
structural, and theorem find_nearest_walk_terminates below shows that
pkeys-many steps always suffice (each step adds a fresh id to visited). -/
def findNearestAux (m : PMap) (filtered kept : List Nat) :
    Nat → List Nat → Option Nat → Option Nat
  | 0, _, _ => none
  | _ + 1, _, none => none
  | fuel + 1, visited, some c =>
    if c = 0 then none
    else if c ∈ visited then none
    else if c ∉ filtered ∧ c ∈ kept then some c
    else findNearestAux m filtered kept fuel (c :: visited) (pget m c)

/-- find_nearest_non_filtered_ancestor from restructure_trace_spans.
filtered models filtered_span_ids, kept models the key set of
kept_span_by_id.  The walk starts from parent_map.get(span_id). -/
def find_nearest_non_filtered_ancestor (m : PMap) (filtered kept : List Nat)
    (span_id : Nat) : Option Nat :=
  findNearestAux m filtered kept (m.length + 1) [] (pget m span_id)

/-- Python or on two optional span ids, where a zero id is falsy:
current_parent_id or original_parent_id. -/
def orT : Option Nat → Option Nat → Option Nat
  | some n, b => if n = 0 then b else some n
  | none, b => b

/-- Lookup in kept_span_by_id.  The dict is built by iterating kept_spans,
so on duplicate span ids the last occurrence wins. -/
def kfind (kept_spans : List RSpan) (k : Nat) : Option RSpan :=
  kept_spans.reverse.find? (fun s => s.sid == k)

/-- The three diagnostic attributes written by the last-resort tier of the
reparenting fallback. -/
def reparentAttrs (attrs : List (String × AttrVal)) (p np : Nat)
    (npname : String) : List (String × AttrVal) :=
  aset (aset (aset attrs "_reparented_from" (AttrVal.spanRef p))
    "_reparented_to" (AttrVal.spanRef np)) "_reparented_to_name" (AttrVal.str npname)

/-- One iteration of the inner for loop of restructure_trace_spans for a
single kept span: decide whether the span needs reparenting, find the
nearest surviving ancestor, and apply the three-tier fallback.  Returns the
updated span, the updated parent map, and the number of modifications
counted for spans_modified_this_iteration.  Tier selection models the
hasattr probes: ReadableSpan objects of the installed SDK always expose
_parent, so hasParentAttr is true for real spans. -/
def processSpan (filtered : List Nat) (kept_spans : List RSpan)
    (span : RSpan) (m : PMap) : RSpan × PMap × Nat :=
  match orT span.parent (pget m span.sid) with
  | none => (span, m, 0)
  | some p =>
    if p ≠ 0 ∧ p ∈ filtered then
      match find_nearest_non_filtered_ancestor m filtered
          (kept_spans.map RSpan.sid) span.sid with
      | none => (span, m, 0)
      | some np =>
        match kfind kept_spans np with
        | none => (span, m, 0)
        | some nps =>
          if span.hasParentAttr then
            ({ span with parent := some np }, pset m span.sid np, 1)
          else if span.hasLinksAttr then
            (if span.linksIsList then { span with links := span.links ++ [np] }
             else span,
             pset m span.sid np, 1)
          else
            ({ span with attributes := reparentAttrs span.attributes p np nps.name },
             pset m span.sid np, 1)
    else (span, m, 0)

/-- One pass of the while loop of restructure_trace_spans over the whole
kept list, threading the parent map left to right exactly as the in-place
Python mutation does.  Returns the rewritten list, the final map, and
spans_modified_this_iteration. -/
def runPass (filtered : List Nat) (kept_spans : List RSpan) :
    List RSpan → PMap → List RSpan × PMap × Nat
  | [], m => ([], m, 0)
  | span :: rest, m =>
    let r := processSpan filtered kept_spans span m
    let rr := runPass filtered kept_spans rest r.2.1
    (r.1 :: rr.1, rr.2.1, r.2.2 + rr.2.2)

/-- The while loop of restructure_trace_spans: run passes until one makes
zero modifications or the budget (max_iterations = 10) is exhausted.
Returns the spans, the map, the total reparented count, and the number of
iterations performed. -/
def restructureLoop (filtered : List Nat) (kept_spans : List RSpan) :
    Nat → List RSpan → PMap → List RSpan × PMap × Nat × Nat
  | 0, spans, m => (spans, m, 0, 0)
  | budget + 1, spans, m =>
    let r := runPass filtered kept_spans spans m
    if r.2.2 = 0 then (r.1, r.2.1, 0, 1)
    else
      let rest := restructureLoop filtered kept_spans budget r.1 r.2.1
      (rest.1, rest.2.1, r.2.2 + rest.2.2.1, rest.2.2.2 + 1)

/-- restructure_trace_spans, returning both the restructured kept spans and
the final parent map (the map is internal in the source; it is exposed here
so that idempotence can be stated against the same full-batch parent
information). -/
def restructureFull (all_spans kept_spans : List RSpan)
    (filtered_span_ids : List Nat) : List RSpan × PMap :=
  if filtered_span_ids = [] then (kept_spans, buildParentMap all_spans)
  else
    let m := buildParentMap all_spans
    let r := restructureLoop filtered_span_ids kept_spans 10 kept_spans m
    (r.1, r.2.1)

/-- restructure_trace_spans from otel_exporter.py: when no span was
filtered the kept list is returned untouched, otherwise the reparenting
loop runs on the kept spans. -/
def restructure_trace_spans (all_spans kept_spans : List RSpan)
    (filtered_span_ids : List Nat) : List RSpan :=
  if filtered_span_ids = [] then kept_spans
  else (restructureFull all_spans kept_spans filtered_span_ids).1

/-- The inner for loop over parent_map.items() inside the descendant
search, one entry at a time: add every child of cur that is not yet in the
descendant set.  Returns the grown set together with the list of newly
added ids, in iteration order (the ids the Python code also pushes onto
the stack). -/
def collectChildrenAux (cur : Nat) :
    List (Nat × Nat) → List Nat → List Nat × List Nat
  | [], desc => (desc, [])
  | e :: ms, desc =>
    if e.2 = cur ∧ e.1 ∉ desc then
      ((collectChildrenAux cur ms (desc ++ [e.1])).1,
       e.1 :: (collectChildrenAux cur ms (desc ++ [e.1])).2)
    else collectChildrenAux cur ms desc

/-- The full pass over parent_map.items() for one popped id. -/
def collectChildren (m : PMap) (cur : Nat) (desc : List Nat) :
    List Nat × List Nat :=
  collectChildrenAux cur m desc

/-- The while-stack loop of the subtree-removal branch of export.  The
Python list stack pops from the end; the stack is modeled head-first, so a
pop takes the head and the newly found children are pushed in reverse
order.  The while loop needs no fuel in Python because every pushed id is
new to the descendant set; the fuel argument makes the recursion structural
and m.length + 2 steps always suffice. -/
def bfsLoop (m : PMap) : Nat → List Nat → List Nat → List Nat
  | 0, _, desc => desc
  | _ + 1, [], desc => desc
  | fuel + 1, cur :: stack, desc =>
    let r := collectChildren m cur desc
    bfsLoop m fuel (r.2.reverse ++ stack) r.1

/-- The body of the outer descendant search for one filtered span id,
iterating over the parent-map entries: every direct child found is added
to the set and fully explored with its own stack. -/
def addDirectChildrenAux (m : PMap) (fid : Nat) :
    List (Nat × Nat) → List Nat → List Nat
  | [], desc => desc
  | e :: ms, desc =>
    if e.2 = fid then
      addDirectChildrenAux m fid ms
        (bfsLoop m (m.length + 2) [e.1]
          (if e.1 ∈ desc then desc else desc ++ [e.1]))
    else addDirectChildrenAux m fid ms desc

/-- The direct-children loop for one filtered id over the whole map. -/
def addDirectChildren (m : PMap) (fid : Nat) (desc : List Nat) : List Nat :=
  addDirectChildrenAux m fid m desc

/-- The outer loop of the descendant search over the filtered ids. -/
def descFilterAux (m : PMap) : List Nat → List Nat → List Nat
  | [], desc => desc
  | fid :: fs, desc => descFilterAux m fs (addDirectChildren m fid desc)

/-- descendants_to_filter from the reparenting-disabled branch of
ModifyingSpanExporter.export: the filtered ids plus all their descendants
computed by forward traversal of the parent map. -/
def descendants_to_filter (m : PMap) (filtered_span_ids : List Nat) :
    List Nat :=
  descFilterAux m filtered_span_ids filtered_span_ids

/-- ASCII lowercasing of one character, an executable model of
Char.toLower restricted to ASCII (all values of the environment flag are
ASCII). -/
def lowerChar (c : Char) : Char :=
  if 65 ≤ c.toNat ∧ c.toNat ≤ 90 then Char.ofNat (c.toNat + 32) else c

/-- ASCII lowercasing of a string, an executable model of str.lower(). -/
def strLower (s : String) : String := ⟨s.data.map lowerChar⟩

/-- The OTEL_SPAN_REPARENT_ENABLED check in export: the environment value
(default true) is lowercased and compared against true, 1, yes. -/
def reparent_enabled_check (envVar : Option String) : Bool :=
  ["true", "1", "yes"].contains (strLower (envVar.getD "true"))

/-- The span set that ModifyingSpanExporter.export hands to _export_spans:
partition by should_filter_span, then pass through unchanged, apply
subtree removal, or apply reparenting, following the three branches of the
source. -/
def processedSpans (patterns : List (String → Bool)) (reparentEnv : Option String)
    (spans : List RSpan) : List RSpan :=
  let filtered_span_ids :=
    (spans.filter (fun s => should_filter_span s patterns)).map RSpan.sid
  let spans_to_keep := spans.filter (fun s => !(should_filter_span s patterns))
  if filtered_span_ids = [] then spans_to_keep
  else if !(reparent_enabled_check reparentEnv) then
    let m := buildParentMap spans
    let desc := descendants_to_filter m filtered_span_ids
    spans_to_keep.filter (fun s => !(desc.contains s.sid))
  else restructure_trace_spans spans spans_to_keep filtered_span_ids

/-- Result type of a span export, as in the OpenTelemetry SDK. -/
inductive SpanExportResult where
  | success
  | failure
  deriving DecidableEq, Repr

/-- ModifyingSpanExporter._export_spans: delegate to the wrapped exporter,
forward its result unchanged, and map any exception raised by the call
(modeled by the Except error branch of the sink) to FAILURE. -/
def exportSpansImpl (base_exporter : List RSpan → Except String SpanExportResult)
    (spans : List RSpan) : SpanExportResult :=
  match base_exporter spans with
  | Except.ok SpanExportResult.success => SpanExportResult.success
  | Except.ok SpanExportResult.failure => SpanExportResult.failure
  | Except.error _ => SpanExportResult.failure

/-- ModifyingSpanExporter.export: filter, optionally restructure, then
forward the processed span set through _export_spans.  Named exportBatch
because export is a Lean keyword. -/
def exportBatch (patterns : List (String → Bool)) (reparentEnv : Option String)
    (base_exporter : List RSpan → Except String SpanExportResult)
    (spans : List RSpan) : SpanExportResult :=
  exportSpansImpl base_exporter (processedSpans patterns reparentEnv spans)

/- ===== Declarative ancestor reachability ===== -/

/-- An id that find_nearest_non_filtered_ancestor may return: truthy, not
filtered, and present among the kept span ids. -/
def GoodAnc (filtered kept : List Nat) (a : Nat) : Prop :=
  a ≠ 0 ∧ a ∉ filtered ∧ a ∈ kept

instance (filtered kept : List Nat) (a : Nat) :
    Decidable (GoodAnc filtered kept a) := by
  unfold GoodAnc; infer_instance

/-- One step up the parent chain as a relation on ids: from a truthy id u
to its entry in the parent map. -/
def PStep (m : PMap) (u v : Nat) : Prop := u ≠ 0 ∧ pget m u = some v

/-- The walk of find_nearest_non_filtered_ancestor can reach id a from the
span with id s: the walk starts at the parent-map entry of s and follows
entries upward, never stepping from the falsy id 0. -/
def WalkReach (m : PMap) (s a : Nat) : Prop :=
  ∃ p, pget m s = some p ∧ Relation.ReflTransGen (PStep m) p a

/-- The span with id s has a surviving ancestor: some id in its parent
chain that is truthy, not filtered, and kept. -/
def HasSurvivor (m : PMap) (filtered kept : List Nat) (s : Nat) : Prop :=
  ∃ a, GoodAnc filtered kept a ∧ WalkReach m s a

/-- Total functional form of one walk step, acting on the optional current
id exactly as the loop of find_nearest_non_filtered_ancestor advances. -/
def gstep (m : PMap) : Option Nat → Option Nat
  | none => none
  | some c => if c = 0 then none else pget m c

/-- One admissible parent-map update performed by the restructuring loop:
an assignment at a key from S whose value is a good ancestor reachable from
that key. -/
def GoodUpdIn (S F K : List Nat) (mm mm2 : PMap) : Prop :=
  ∃ x np, x ∈ S ∧ GoodAnc F K np ∧ WalkReach mm x np ∧ mm2 = pset mm x np

/-- An admissible parent-map update, without tracking the updated key. -/
def GoodUpd (F K : List Nat) (mm mm2 : PMap) : Prop :=
  ∃ x np, GoodAnc F K np ∧ WalkReach mm x np ∧ mm2 = pset mm x np

/-- The fields of a span that one reparenting step may change, relative to
the input span: only the parent reference (rewritten to a good ancestor),
the links (appended to), and the three reparenting diagnostic attributes.
Everything else, including id, name, timestamps and the remaining
attributes, is untouched. -/
def SpanFrame (F K : List Nat) (s s2 : RSpan) : Prop :=
  s2.sid = s.sid ∧ s2.name = s.name ∧ s2.startTime = s.startTime ∧
  s2.endTime = s.endTime ∧ s2.hasParentAttr = s.hasParentAttr ∧
  s2.hasLinksAttr = s.hasLinksAttr ∧ s2.linksIsList = s.linksIsList ∧
  (s2.parent = s.parent ∨ ∃ np, GoodAnc F K np ∧ s2.parent = some np) ∧
  (∃ ext, s2.links = s.links ++ ext) ∧
  (∀ key, key ≠ "_reparented_from" → key ≠ "_reparented_to" →
    key ≠ "_reparented_to_name" → aget s2.attributes key = aget s.attributes key)

/-- b is a direct child of a in the parent map. -/
def ChildStep (m : PMap) (a b : Nat) : Prop := pget m b = some a

/-- x lies strictly below f in the parent map: a nonempty chain of child
steps leads from f down to x. -/
def DescendantOf (m : PMap) (f x : Nat) : Prop :=
  Relation.TransGen (ChildStep m) f x

example :
    (aget (on_end "development" "1.0.0"
      { sid := 1, parent := none, name := "x", startTime := some 2,
        endTime := some 1, attributes := [], links := [] }).attributes
      "duration_ms").isSome = true := by decide

example :
    restructure_trace_spans
      [{ sid := 1, parent := none, name := "root", startTime := none,
         endTime := none, attributes := [], links := [] },
       { sid := 2, parent := some 1, name := "mid", startTime := none,
         endTime := none, attributes := [], links := [] },
       { sid := 3, parent := some 2, name := "leaf", startTime := none,
         endTime := none, attributes := [], links := [] }]
      [{ sid := 1, parent := none, name := "root", startTime := none,
         endTime := none, attributes := [], links := [] },
       { sid := 3, parent := some 2, name := "leaf", startTime := none,
         endTime := none, attributes := [], links := [] }]
      [2]
    = [{ sid := 1, parent := none, name := "root", startTime := none,
         endTime := none, attributes := [], links := [] },
       { sid := 3, parent := some 1, name := "leaf", startTime := none,
         endTime := none, attributes := [], links := [] }] := by decide

example :
    descendants_to_filter [(2, 1), (3, 2), (4, 3), (5, 1)] [2]
    = [2, 3, 4] := by decide

example :
    processedSpans [fun n => n = "mid"] (some "false")
      [{ sid := 1, parent := none, name := "root", startTime := none,
         endTime := none, attributes := [], links := [] },
       { sid := 2, parent := some 1, name := "mid", startTime := none,
         endTime := none, attributes := [], links := [] },
       { sid := 3, parent := some 2, name := "leaf", startTime := none,
         endTime := none, attributes := [], links := [] }]
    = [{ sid := 1, parent := none, name := "root", startTime := none,
         endTime := none, attributes := [], links := [] }] := by decide

/- ===== Basic lemmas about the parent map ===== -/

theorem pget_pset_self (m : PMap) (k v : Nat) : pget (pset m k v) k = some v := by
  induction m with
  | nil => simp [pset, pget]
  | cons e m ih =>
    by_cases h : e.1 = k
    · simp [pset, h, pget]
    · simp [pset, h, pget, ih]

theorem pget_pset_ne (m : PMap) (k v k2 : Nat) (h : k2 ≠ k) :
    pget (pset m k v) k2 = pget m k2 := by
  induction m with
  | nil =>
    show (if k = k2 then some v else pget [] k2) = pget [] k2
    rw [if_neg (fun he => h he.symm)]
  | cons e m ih =>
    show pget (if e.1 = k then (k, v) :: m else e :: pset m k v) k2 = pget (e :: m) k2
    by_cases he : e.1 = k
    · rw [if_pos he]
      show (if k = k2 then some v else pget m k2)
        = if e.1 = k2 then some e.2 else pget m k2
      rw [if_neg (fun hh => h hh.symm), if_neg (by rw [he]; exact fun hh => h hh.symm)]
    · rw [if_neg he]
      show (if e.1 = k2 then some e.2 else pget (pset m k v) k2)
        = if e.1 = k2 then some e.2 else pget m k2
      rw [ih]

theorem mem_of_mem_pset (m : PMap) (k v : Nat) (e : Nat × Nat)
    (h : e ∈ pset m k v) : e ∈ m ∨ e = (k, v) := by
  induction m with
  | nil =>
    right
    have hp : pset ([] : PMap) k v = [(k, v)] := rfl
    rw [hp] at h
    simpa using h
  | cons e2 m ih =>
    have hp : pset (e2 :: m) k v
      = if e2.1 = k then (k, v) :: m else e2 :: pset m k v := rfl
    rw [hp] at h
    by_cases he : e2.1 = k
    · rw [if_pos he] at h
      rcases List.mem_cons.mp h with h | h
      · right; exact h
      · left; exact List.mem_cons_of_mem _ h
    · rw [if_neg he] at h
      rcases List.mem_cons.mp h with h | h
      · left; exact List.mem_cons.mpr (Or.inl h)
      · rcases ih h with h2 | h2
        · left; exact List.mem_cons_of_mem _ h2
        · right; exact h2

theorem pget_entry_mem (m : PMap) (k v : Nat) (h : pget m k = some v) :
    (k, v) ∈ m := by
  induction m with
  | nil => simp [pget] at h
  | cons e m ih =>
    by_cases he : e.1 = k
    · simp [pget, he] at h
      have he2 : e = (k, v) := by
        cases e with
        | mk a b =>
          simp at he
          simp [he, h.symm]
      rw [he2]
      exact List.mem_cons_self _ _
    · simp [pget, he] at h
      exact List.mem_cons_of_mem _ (ih h)

theorem pget_mem_pvals (m : PMap) (k v : Nat) (h : pget m k = some v) :
    v ∈ pvals m :=
  List.mem_map.mpr ⟨(k, v), pget_entry_mem m k v h, rfl⟩

theorem mem_pvals_pset (m : PMap) (k v x : Nat) (h : x ∈ pvals (pset m k v)) :
    x ∈ pvals m ∨ x = v := by
  rcases List.mem_map.mp h with ⟨e, he, hx⟩
  rcases mem_of_mem_pset m k v e he with h2 | h2
  · exact Or.inl (List.mem_map.mpr ⟨e, h2, hx⟩)
  · subst h2; exact Or.inr hx.symm

theorem gstep_iterate_none (m : PMap) (k : Nat) : (gstep m)^[k] none = none := by
  induction k with
  | zero => rfl
  | succ k ih => rw [Function.iterate_succ_apply, show gstep m none = none from rfl, ih]

theorem pstep_iff_gstep (m : PMap) (u v : Nat) :
    PStep m u v ↔ gstep m (some u) = some v := by
  constructor
  · rintro ⟨h0, hg⟩
    simp [gstep, h0, hg]
  · intro h
    by_cases h0 : u = 0
    · simp [gstep, h0] at h
    · simp [gstep, h0] at h
      exact ⟨h0, h⟩

theorem rtg_iff_iterate (m : PMap) (p a : Nat) :
    Relation.ReflTransGen (PStep m) p a ↔
      ∃ k, (gstep m)^[k] (some p) = some a := by
  constructor
  · intro h
    induction h with
    | refl => exact ⟨0, rfl⟩
    | tail hseg hstep ih =>
      rcases ih with ⟨k, hk⟩
      exact ⟨k + 1, by
        rw [Function.iterate_succ_apply', hk, (pstep_iff_gstep m _ _).mp hstep]⟩
  · rintro ⟨k, hk⟩
    induction k generalizing p with
    | zero =>
      simp at hk
      exact hk ▸ Relation.ReflTransGen.refl
    | succ k ih =>
      rw [Function.iterate_succ_apply] at hk
      rcases hg : gstep m (some p) with _ | q
      · rw [hg, gstep_iterate_none] at hk
        cases hk
      · rw [hg] at hk
        exact Relation.ReflTransGen.head ((pstep_iff_gstep m p q).mpr hg) (ih q hk)

theorem findNearestAux_some (m : PMap) (F K : List Nat) :
    ∀ (fuel : Nat) (visited : List Nat) (cur : Option Nat) (a : Nat),
      findNearestAux m F K fuel visited cur = some a →
      GoodAnc F K a ∧ ∀ c, cur = some c → Relation.ReflTransGen (PStep m) c a := by
  intro fuel
  induction fuel with
  | zero =>
    intro visited cur a h
    simp [findNearestAux] at h
  | succ fuel ih =>
    intro visited cur a h
    rcases cur with _ | c
    · simp [findNearestAux] at h
    · by_cases h0 : c = 0
      · simp [findNearestAux, h0] at h
      · by_cases hv : c ∈ visited
        · simp [findNearestAux, h0, hv] at h
        · by_cases hg : c ∉ F ∧ c ∈ K
          · simp [findNearestAux, h0, hv, hg] at h
            subst h
            refine ⟨⟨h0, hg.1, hg.2⟩, ?_⟩
            rintro c2 hc2
            cases hc2
            exact Relation.ReflTransGen.refl
          · simp only [findNearestAux, if_neg h0, if_neg hv, if_neg hg] at h
            rcases ih _ _ _ h with ⟨hga, hreach⟩
            refine ⟨hga, ?_⟩
            rintro c2 hc2
            cases hc2
            rcases hq : pget m c with _ | q
            · rw [hq] at h
              cases fuel <;> simp [findNearestAux] at h
            · exact Relation.ReflTransGen.head ⟨h0, hq⟩ (hreach q hq)

theorem iterate_period_reduce {α : Type} (f : α → α) (x : α) (i j : Nat)
    (hij : i < j) (heq : f^[i] x = f^[j] x) :
    ∀ n, i ≤ n → ∃ n2, i ≤ n2 ∧ n2 < j ∧ f^[n2] x = f^[n] x := by
  intro n
  induction n using Nat.strong_induction_on with
  | _ n ihn =>
    intro hin
    by_cases hnj : n < j
    · exact ⟨n, hin, hnj, rfl⟩
    · push_neg at hnj
      have hd : i ≤ n - (j - i) := by omega
      have hlt : n - (j - i) < n := by omega
      have heq2 : f^[n - (j - i)] x = f^[n] x := by
        have h1 : n - (j - i) = (n - j) + i := by omega
        have h2 : n = (n - j) + j := by omega
        rw [h1, Function.iterate_add_apply, heq, ← Function.iterate_add_apply, ← h2]
      rcases ihn (n - (j - i)) hlt hd with ⟨n2, ha, hb, hc⟩
      exact ⟨n2, ha, hb, hc.trans heq2⟩

theorem findNearestAux_finds (m : PMap) (F K : List Nat) :
    ∀ (k : Nat) (cur : Option Nat) (visited : List Nat) (fuel : Nat) (a : Nat),
      (gstep m)^[k] cur = some a → GoodAnc F K a →
      (∀ j b, j < k → (gstep m)^[j] cur = some b → ¬ GoodAnc F K b) →
      (∀ i j, i < j → j ≤ k → (gstep m)^[i] cur ≠ (gstep m)^[j] cur) →
      (∀ i b, i ≤ k → (gstep m)^[i] cur = some b → b ∉ visited) →
      k < fuel →
      ∃ a2, findNearestAux m F K fuel visited cur = some a2 ∧ GoodAnc F K a2 := by
  intro k
  induction k with
  | zero =>
    intro cur visited fuel a hit hga hng hdist hvis hfuel
    simp only [Function.iterate_zero, id] at hit
    subst hit
    obtain ⟨f2, rfl⟩ : ∃ f2, fuel = f2 + 1 := ⟨fuel - 1, by omega⟩
    have hv : a ∉ visited := hvis 0 a (Nat.le_refl 0) (by simp)
    refine ⟨a, ?_, hga⟩
    rcases hga with ⟨h0, hF, hK⟩
    simp [findNearestAux, h0, hv, hF, hK]
  | succ k ihk =>
    intro cur visited fuel a hit hga hng hdist hvis hfuel
    rcases hcur : cur with _ | c
    · rw [hcur, gstep_iterate_none] at hit
      cases hit
    · subst hcur
      have hc0 : c ≠ 0 := by
        intro h0
        rw [h0, Function.iterate_succ_apply, show gstep m (some 0) = none from rfl,
          gstep_iterate_none] at hit
        cases hit
      have hcv : c ∉ visited := hvis 0 c (Nat.zero_le _) (by simp)
      have hcng : ¬ GoodAnc F K c := hng 0 c (Nat.succ_pos k) (by simp)
      have hcnotgood : ¬ (c ∉ F ∧ c ∈ K) := fun hg => hcng ⟨hc0, hg.1, hg.2⟩
      obtain ⟨f2, rfl⟩ : ∃ f2, fuel = f2 + 1 := ⟨fuel - 1, by omega⟩
      have hstep : gstep m (some c) = pget m c := by simp [gstep, hc0]
      have hnext : ∀ j, (gstep m)^[j] (pget m c) = (gstep m)^[j + 1] (some c) := by
        intro j
        rw [Function.iterate_succ_apply, hstep]
      have hit2 : (gstep m)^[k] (pget m c) = some a := by
        rw [hnext k]
        exact hit
      have hng2 : ∀ j b, j < k → (gstep m)^[j] (pget m c) = some b → ¬ GoodAnc F K b := by
        intro j b hj hb
        exact hng (j + 1) b (by omega) (by rw [← hnext j]; exact hb)
      have hdist2 : ∀ i j, i < j → j ≤ k →
          (gstep m)^[i] (pget m c) ≠ (gstep m)^[j] (pget m c) := by
        intro i j hij hjk heq
        exact hdist (i + 1) (j + 1) (by omega) (by omega)
          (by rw [← hnext i, ← hnext j]; exact heq)
      have hvis2 : ∀ i b, i ≤ k → (gstep m)^[i] (pget m c) = some b →
          b ∉ c :: visited := by
        intro i b hik hb
        have hb2 : (gstep m)^[i + 1] (some c) = some b := by
          rw [← hnext i]; exact hb
        intro hmem
        rcases List.mem_cons.mp hmem with hbc | hbv
        · subst hbc
          exact hdist 0 (i + 1) (by omega) (by omega)
            (by simp only [Function.iterate_zero, id]; rw [hb2])
        · exact hvis (i + 1) b (by omega) hb2 hbv
      rcases ihk (pget m c) (c :: visited) f2 a hit2 hga hng2 hdist2 hvis2
        (by omega) with ⟨a2, haux, hga2⟩
      refine ⟨a2, ?_, hga2⟩
      simp only [findNearestAux, if_neg hc0, if_neg hcv, if_neg hcnotgood]
      exact haux

theorem find_nearest_some_hasSurvivor (m : PMap) (F K : List Nat) (s a : Nat)
    (h : find_nearest_non_filtered_ancestor m F K s = some a) :
    GoodAnc F K a ∧ WalkReach m s a := by
  unfold find_nearest_non_filtered_ancestor at h
  rcases hp : pget m s with _ | p
  · rw [hp] at h
    simp [findNearestAux] at h
  · rw [hp] at h
    rcases findNearestAux_some m F K _ _ _ _ h with ⟨hga, hreach⟩
    exact ⟨hga, p, hp, hreach p rfl⟩

theorem hasSurvivor_find_nearest_some (m : PMap) (F K : List Nat) (s : Nat)
    (h : HasSurvivor m F K s) :
    ∃ a, find_nearest_non_filtered_ancestor m F K s = some a ∧ GoodAnc F K a := by
  classical
  rcases h with ⟨a, hga, p, hp, hrtg⟩
  rcases (rtg_iff_iterate m p a).mp hrtg with ⟨k0, hk0⟩
  have hP : ∃ k, ∃ b, (gstep m)^[k] (pget m s) = some b ∧ GoodAnc F K b :=
    ⟨k0, a, by rw [hp]; exact hk0, hga⟩
  set k := Nat.find hP with hkdef
  have hPk := Nat.find_spec hP
  have hmin : ∀ j, j < k →
      ¬ ∃ b, (gstep m)^[j] (pget m s) = some b ∧ GoodAnc F K b :=
    fun j hj => Nat.find_min hP hj
  rcases hPk with ⟨b, hitb, hgb⟩
  have hdist : ∀ i j, i < j → j ≤ k →
      (gstep m)^[i] (pget m s) ≠ (gstep m)^[j] (pget m s) := by
    intro i j hij hjk heq
    rcases iterate_period_reduce (gstep m) (pget m s) i j hij heq k
      (le_trans (Nat.le_of_lt hij) hjk) with ⟨n2, hn2i, hn2j, hn2⟩
    by_cases hn2k : n2 < k
    · exact hmin n2 hn2k ⟨b, by rw [hn2]; exact hitb, hgb⟩
    · omega
  have hsome : ∀ i, i ≤ k → ∃ bi, (gstep m)^[i] (pget m s) = some bi := by
    intro i hik
    rcases hx : (gstep m)^[i] (pget m s) with _ | bi
    · exfalso
      have hnone : (gstep m)^[k] (pget m s) = none := by
        have hk2 : k = (k - i) + i := by omega
        rw [hk2, Function.iterate_add_apply, hx, gstep_iterate_none]
      rw [hnone] at hitb
      cases hitb
    · exact ⟨bi, rfl⟩
  have hvals : ∀ i, i ≤ k → ∀ bi, (gstep m)^[i] (pget m s) = some bi →
      bi ∈ pvals m := by
    intro i
    cases i with
    | zero =>
      intro h0 bi hbi
      simp only [Function.iterate_zero, id] at hbi
      exact pget_mem_pvals m s bi hbi
    | succ i =>
      intro hik bi hbi
      rcases hsome i (by omega) with ⟨c, hc⟩
      rw [Function.iterate_succ_apply', hc] at hbi
      by_cases hc0 : c = 0
      · simp [gstep, hc0] at hbi
      · simp only [gstep, if_neg hc0] at hbi
        exact pget_mem_pvals m c bi hbi
  have hbound : k < m.length + 1 := by
    have hval : ∀ i, i ≤ k → ((gstep m)^[i] (pget m s)).getD 0 ∈ pvals m := by
      intro i hik
      rcases hsome i hik with ⟨bi, hbi⟩
      rw [hbi]
      exact hvals i hik bi hbi
    have hinj : ∀ i ∈ List.range (k + 1), ∀ j ∈ List.range (k + 1),
        ((gstep m)^[i] (pget m s)).getD 0 = ((gstep m)^[j] (pget m s)).getD 0 →
        i = j := by
      intro i hi j hj heq
      simp only [List.mem_range] at hi hj
      by_contra hne
      rcases Nat.lt_or_ge i j with hij | hij
      · apply hdist i j hij (by omega)
        rcases hsome i (by omega) with ⟨bi, hbi⟩
        rcases hsome j (by omega) with ⟨bj, hbj⟩
        rw [hbi, hbj] at heq ⊢
        simp at heq
        rw [heq]
      · have hij2 : j < i := by omega
        apply hdist j i hij2 (by omega)
        rcases hsome i (by omega) with ⟨bi, hbi⟩
        rcases hsome j (by omega) with ⟨bj, hbj⟩
        rw [hbi, hbj] at heq ⊢
        simp at heq
        rw [heq]
    have hnodup : ((List.range (k + 1)).map
        (fun i => ((gstep m)^[i] (pget m s)).getD 0)).Nodup :=
      List.Nodup.map_on hinj (List.nodup_range (k + 1))
    have hsub : ((List.range (k + 1)).map
        (fun i => ((gstep m)^[i] (pget m s)).getD 0)) ⊆ pvals m := by
      intro x hx
      rcases List.mem_map.mp hx with ⟨i, hi, hxi⟩
      simp only [List.mem_range] at hi
      rw [← hxi]
      exact hval i (by omega)
    have hsp := List.subperm_of_subset hnodup hsub
    have hlen := hsp.length_le
    simp only [List.length_map, List.length_range] at hlen
    have hplen : (pvals m).length = m.length := by simp [pvals]
    omega
  have hvis : ∀ i b2, i ≤ k → (gstep m)^[i] (pget m s) = some b2 →
      b2 ∉ ([] : List Nat) := by
    intro _ _ _ _ h
    cases h
  rcases findNearestAux_finds m F K k (pget m s) [] (m.length + 1) b hitb hgb
    (fun j b2 hj hb2 hgb2 => hmin j hj ⟨b2, hb2, hgb2⟩) hdist hvis hbound with
    ⟨a2, haux, hga2⟩
  exact ⟨a2, haux, hga2⟩

theorem find_nearest_none_iff (m : PMap) (F K : List Nat) (s : Nat) :
    find_nearest_non_filtered_ancestor m F K s = none ↔
      ¬ HasSurvivor m F K s := by
  constructor
  · intro h hs
    rcases hasSurvivor_find_nearest_some m F K s hs with ⟨a, ha, _⟩
    rw [h] at ha
    cases ha
  · intro h
    rcases hfn : find_nearest_non_filtered_ancestor m F K s with _ | a
    · rfl
    · exact absurd ⟨a, (find_nearest_some_hasSurvivor m F K s a hfn).1,
        (find_nearest_some_hasSurvivor m F K s a hfn).2⟩ h

theorem findNearestAux_fuel_stable (m : PMap) (F K : List Nat) :
    ∀ (n : Nat) (visited : List Nat) (cur : Option Nat) (f1 f2 : Nat),
      (∀ c, cur = some c → c ∈ pvals m) →
      ((pvals m).toFinset \ visited.toFinset).card < n →
      ((pvals m).toFinset \ visited.toFinset).card < f1 →
      ((pvals m).toFinset \ visited.toFinset).card < f2 →
      findNearestAux m F K f1 visited cur = findNearestAux m F K f2 visited cur := by
  intro n
  induction n with
  | zero =>
    intro _ _ _ _ _ hn _ _
    omega
  | succ n ih =>
    intro visited cur f1 f2 hcur hn h1 h2
    obtain ⟨g1, rfl⟩ : ∃ g, f1 = g + 1 := ⟨f1 - 1, by omega⟩
    obtain ⟨g2, rfl⟩ : ∃ g, f2 = g + 1 := ⟨f2 - 1, by omega⟩
    rcases cur with _ | c
    · rfl
    · by_cases h0 : c = 0
      · simp [findNearestAux, h0]
      · by_cases hv : c ∈ visited
        · simp [findNearestAux, h0, hv]
        · by_cases hg : c ∉ F ∧ c ∈ K
          · simp [findNearestAux, h0, hv, hg]
          · simp only [findNearestAux, if_neg h0, if_neg hv, if_neg hg]
            have hcp : c ∈ pvals m := hcur c rfl
            have hcard : ((pvals m).toFinset \ (c :: visited).toFinset).card
                < ((pvals m).toFinset \ visited.toFinset).card := by
              have hmem : c ∈ (pvals m).toFinset \ visited.toFinset := by
                simp [List.mem_toFinset, hcp, hv]
              have heq : (pvals m).toFinset \ (c :: visited).toFinset
                  = ((pvals m).toFinset \ visited.toFinset).erase c := by
                ext y
                simp only [List.toFinset_cons, Finset.mem_sdiff, Finset.mem_insert,
                  Finset.mem_erase, List.mem_toFinset]
                tauto
              rw [heq]
              exact Finset.card_erase_lt_of_mem hmem
            exact ih (c :: visited) (pget m c) g1 g2
              (fun c2 hc2 => pget_mem_pvals m c c2 hc2)
              (by omega) (by omega) (by omega)

theorem find_nearest_fuel_stable (m : PMap) (F K : List Nat) (s : Nat)
    (fuel : Nat) (hfuel : m.length + 1 ≤ fuel) :
    findNearestAux m F K fuel [] (pget m s)
      = find_nearest_non_filtered_ancestor m F K s := by
  unfold find_nearest_non_filtered_ancestor
  have hcard : ((pvals m).toFinset \ ([] : List Nat).toFinset).card ≤ m.length := by
    have h1 : ((pvals m).toFinset \ ([] : List Nat).toFinset).card
        ≤ (pvals m).toFinset.card := Finset.card_le_card (Finset.sdiff_subset)
    have h2 : (pvals m).toFinset.card ≤ (pvals m).length := List.toFinset_card_le _
    have h3 : (pvals m).length = m.length := by simp [pvals]
    omega
  exact findNearestAux_fuel_stable m F K
    (((pvals m).toFinset \ ([] : List Nat).toFinset).card + 1) [] (pget m s)
    fuel (m.length + 1)
    (fun c hc => pget_mem_pvals m s c hc)
    (by omega) (by omega) (by omega)

/- ===== Invariance of HasSurvivor under reparenting updates ===== -/

theorem goodFrom_pset (m : PMap) (F K : List Nat) (x np : Nat)
    (hnp : GoodAnc F K np) :
    ∀ p a, Relation.ReflTransGen (PStep m) p a → GoodAnc F K a →
      ∃ b, GoodAnc F K b ∧ Relation.ReflTransGen (PStep (pset m x np)) p b := by
  intro p a h hga
  induction h using Relation.ReflTransGen.head_induction_on with
  | refl => exact ⟨a, hga, Relation.ReflTransGen.refl⟩
  | head hstep hrest ih =>
    rename_i u w
    by_cases hux : u = x
    · subst hux
      exact ⟨np, hnp,
        Relation.ReflTransGen.single ⟨hstep.1, pget_pset_self m u np⟩⟩
    · rcases ih with ⟨b, hgb, hrtg⟩
      refine ⟨b, hgb, Relation.ReflTransGen.head ⟨hstep.1, ?_⟩ hrtg⟩
      rw [pget_pset_ne m x np u hux]
      exact hstep.2

theorem goodFrom_unpset (m : PMap) (F K : List Nat) (x np : Nat)
    (hnp : GoodAnc F K np) (hxr : WalkReach m x np) :
    ∀ p a, Relation.ReflTransGen (PStep (pset m x np)) p a → GoodAnc F K a →
      ∃ b, GoodAnc F K b ∧ Relation.ReflTransGen (PStep m) p b := by
  intro p a h hga
  induction h using Relation.ReflTransGen.head_induction_on with
  | refl => exact ⟨a, hga, Relation.ReflTransGen.refl⟩
  | head hstep hrest ih =>
    rename_i u w
    by_cases hux : u = x
    · subst hux
      rcases hxr with ⟨px, hpx, hrtgpx⟩
      exact ⟨np, hnp, Relation.ReflTransGen.head ⟨hstep.1, hpx⟩ hrtgpx⟩
    · rcases ih with ⟨b, hgb, hrtg⟩
      refine ⟨b, hgb, Relation.ReflTransGen.head ⟨hstep.1, ?_⟩ hrtg⟩
      rw [← pget_pset_ne m x np u hux]
      exact hstep.2

theorem hasSurvivor_pset_iff (m : PMap) (F K : List Nat) (x np : Nat)
    (hnp : GoodAnc F K np) (hxr : WalkReach m x np) (s : Nat) :
    HasSurvivor (pset m x np) F K s ↔ HasSurvivor m F K s := by
  constructor
  · rintro ⟨a, hga, p, hp, hrtg⟩
    by_cases hsx : s = x
    · exact ⟨np, hnp, hsx ▸ hxr⟩
    · rw [pget_pset_ne m x np s hsx] at hp
      rcases goodFrom_unpset m F K x np hnp hxr p a hrtg hga with ⟨b, hgb, hrtg2⟩
      exact ⟨b, hgb, p, hp, hrtg2⟩
  · rintro ⟨a, hga, p, hp, hrtg⟩
    by_cases hsx : s = x
    · subst hsx
      exact ⟨np, hnp, np, pget_pset_self m s np, Relation.ReflTransGen.refl⟩
    · rcases goodFrom_pset m F K x np hnp p a hrtg hga with ⟨b, hgb, hrtg2⟩
      refine ⟨b, hgb, p, ?_, hrtg2⟩
      rw [pget_pset_ne m x np s hsx]
      exact hp

theorem hasSurvivor_chain (S F K : List Nat) (mm mm2 : PMap)
    (h : Relation.ReflTransGen (GoodUpdIn S F K) mm mm2) (s : Nat) :
    HasSurvivor mm2 F K s ↔ HasSurvivor mm F K s := by
  induction h with
  | refl => exact Iff.rfl
  | tail hseg hstep ih =>
    rcases hstep with ⟨x, np, _, hnp, hxr, rfl⟩
    exact (hasSurvivor_pset_iff _ F K x np hnp hxr s).trans ih

theorem pget_chain_stable (S F K : List Nat) (mm mm2 : PMap)
    (h : Relation.ReflTransGen (GoodUpdIn S F K) mm mm2) (s : Nat) (hs : s ∉ S) :
    pget mm2 s = pget mm s := by
  induction h with
  | refl => rfl
  | tail hseg hstep ih =>
    rcases hstep with ⟨x, np, hxS, hnp, hxr, rfl⟩
    rw [pget_pset_ne _ x np s (fun he => hs (he ▸ hxS))]
    exact ih

/- ===== Case lemmas for processSpan ===== -/

theorem processSpan_parent_none (F : List Nat) (k0 : List RSpan) (s : RSpan)
    (m : PMap) (h : orT s.parent (pget m s.sid) = none) :
    processSpan F k0 s m = (s, m, 0) := by
  simp only [processSpan, h]

theorem processSpan_not_filtered (F : List Nat) (k0 : List RSpan) (s : RSpan)
    (m : PMap) (p : Nat) (h : orT s.parent (pget m s.sid) = some p)
    (hg : ¬ (p ≠ 0 ∧ p ∈ F)) :
    processSpan F k0 s m = (s, m, 0) := by
  simp only [processSpan, h]
  exact if_neg hg

theorem processSpan_no_ancestor (F : List Nat) (k0 : List RSpan) (s : RSpan)
    (m : PMap) (p : Nat) (h : orT s.parent (pget m s.sid) = some p)
    (hg : p ≠ 0 ∧ p ∈ F)
    (hfind : find_nearest_non_filtered_ancestor m F (k0.map RSpan.sid) s.sid
      = none) :
    processSpan F k0 s m = (s, m, 0) := by
  simp only [processSpan, h, if_pos hg, hfind]

theorem processSpan_tierA (F : List Nat) (k0 : List RSpan) (s : RSpan)
    (m : PMap) (p np : Nat) (nps : RSpan)
    (h : orT s.parent (pget m s.sid) = some p)
    (hg : p ≠ 0 ∧ p ∈ F)
    (hfind : find_nearest_non_filtered_ancestor m F (k0.map RSpan.sid) s.sid
      = some np)
    (hkf : kfind k0 np = some nps)
    (hA : s.hasParentAttr = true) :
    processSpan F k0 s m = ({ s with parent := some np }, pset m s.sid np, 1) := by
  simp only [processSpan, h, if_pos hg, hfind, hkf, hA, if_pos]

theorem kfind_isSome_of_mem (k0 : List RSpan) (np : Nat)
    (h : np ∈ k0.map RSpan.sid) : ∃ nps, kfind k0 np = some nps := by
  rcases List.mem_map.mp h with ⟨sp, hsp, hsid⟩
  have hsp2 : sp ∈ k0.reverse := List.mem_reverse.mpr hsp
  rcases hf : kfind k0 np with _ | nps
  · exfalso
    unfold kfind at hf
    have := List.find?_eq_none.mp hf sp hsp2
    simp [hsid] at this
  · exact ⟨nps, rfl⟩

theorem processSpan_tierB_list (F : List Nat) (k0 : List RSpan) (s : RSpan)
    (m : PMap) (p np : Nat) (nps : RSpan)
    (h : orT s.parent (pget m s.sid) = some p)
    (hg : p ≠ 0 ∧ p ∈ F)
    (hfind : find_nearest_non_filtered_ancestor m F (k0.map RSpan.sid) s.sid
      = some np)
    (hkf : kfind k0 np = some nps)
    (hA : s.hasParentAttr = false) (hL : s.hasLinksAttr = true)
    (hLL : s.linksIsList = true) :
    processSpan F k0 s m
      = ({ s with links := s.links ++ [np] }, pset m s.sid np, 1) := by
  simp only [processSpan, h, if_pos hg, hfind, hkf, hA, hL, hLL,
    Bool.false_eq_true, if_false, if_true]

theorem processSpan_tierB_nolist (F : List Nat) (k0 : List RSpan) (s : RSpan)
    (m : PMap) (p np : Nat) (nps : RSpan)
    (h : orT s.parent (pget m s.sid) = some p)
    (hg : p ≠ 0 ∧ p ∈ F)
    (hfind : find_nearest_non_filtered_ancestor m F (k0.map RSpan.sid) s.sid
      = some np)
    (hkf : kfind k0 np = some nps)
    (hA : s.hasParentAttr = false) (hL : s.hasLinksAttr = true)
    (hLL : s.linksIsList = false) :
    processSpan F k0 s m = (s, pset m s.sid np, 1) := by
  simp only [processSpan, h, if_pos hg, hfind, hkf, hA, hL, hLL,
    Bool.false_eq_true, if_false, if_true]

theorem processSpan_tierC (F : List Nat) (k0 : List RSpan) (s : RSpan)
    (m : PMap) (p np : Nat) (nps : RSpan)
    (h : orT s.parent (pget m s.sid) = some p)
    (hg : p ≠ 0 ∧ p ∈ F)
    (hfind : find_nearest_non_filtered_ancestor m F (k0.map RSpan.sid) s.sid
      = some np)
    (hkf : kfind k0 np = some nps)
    (hA : s.hasParentAttr = false) (hL : s.hasLinksAttr = false) :
    processSpan F k0 s m
      = ({ s with attributes := reparentAttrs s.attributes p np nps.name },
         pset m s.sid np, 1) := by
  simp only [processSpan, h, if_pos hg, hfind, hkf, hA, hL,
    Bool.false_eq_true, if_false]

theorem processSpan_spec (F : List Nat) (k0 : List RSpan) (s : RSpan) (m : PMap) :
    processSpan F k0 s m = (s, m, 0) ∨
    ∃ np nps,
      find_nearest_non_filtered_ancestor m F (k0.map RSpan.sid) s.sid = some np ∧
      GoodAnc F (k0.map RSpan.sid) np ∧ WalkReach m s.sid np ∧
      kfind k0 np = some nps ∧
      (processSpan F k0 s m).2.1 = pset m s.sid np ∧
      (processSpan F k0 s m).2.2 = 1 ∧
      ((processSpan F k0 s m).1 = { s with parent := some np } ∨
       (processSpan F k0 s m).1 = { s with links := s.links ++ [np] } ∨
       (∃ p2, (processSpan F k0 s m).1
          = { s with attributes := reparentAttrs s.attributes p2 np nps.name }) ∨
       (processSpan F k0 s m).1 = s) := by
  rcases hpar : orT s.parent (pget m s.sid) with _ | p
  · exact Or.inl (processSpan_parent_none F k0 s m hpar)
  · by_cases hg : p ≠ 0 ∧ p ∈ F
    · rcases hfind : find_nearest_non_filtered_ancestor m F (k0.map RSpan.sid)
        s.sid with _ | np
      · exact Or.inl (processSpan_no_ancestor F k0 s m p hpar hg hfind)
      · rcases find_nearest_some_hasSurvivor m F (k0.map RSpan.sid) s.sid np
          hfind with ⟨hga, hwr⟩
        rcases kfind_isSome_of_mem k0 np hga.2.2 with ⟨nps, hkf⟩
        right
        refine ⟨np, nps, rfl, hga, hwr, hkf, ?_⟩
        rcases hA : s.hasParentAttr with _ | _
        · rcases hL : s.hasLinksAttr with _ | _
          · rw [processSpan_tierC F k0 s m p np nps hpar hg hfind hkf hA hL]
            exact ⟨rfl, rfl, Or.inr (Or.inr (Or.inl ⟨p, by rw [hA, hL]⟩))⟩
          · rcases hLL : s.linksIsList with _ | _
            · rw [processSpan_tierB_nolist F k0 s m p np nps hpar hg hfind hkf
                hA hL hLL]
              exact ⟨rfl, rfl, Or.inr (Or.inr (Or.inr rfl))⟩
            · rw [processSpan_tierB_list F k0 s m p np nps hpar hg hfind hkf
                hA hL hLL]
              exact ⟨rfl, rfl, Or.inr (Or.inl (by rw [hA, hL, hLL]))⟩
        · rw [processSpan_tierA F k0 s m p np nps hpar hg hfind hkf hA]
          exact ⟨rfl, rfl, Or.inl (by rw [hA])⟩
    · exact Or.inl (processSpan_not_filtered F k0 s m p hpar hg)

/- ===== Lemmas about a single pass of the rewrite loop ===== -/

theorem orT_some_left (n : Nat) (b : Option Nat) (hn : n ≠ 0) :
    orT (some n) b = some n := by
  simp [orT, hn]

theorem orT_noneish (a b : Option Nat) (h : a = none ∨ a = some 0) :
    orT a b = b := by
  rcases h with h | h <;> subst h <;> simp [orT]

theorem orT_none_parts (a b : Option Nat) (h : orT a b = none) :
    (a = none ∨ a = some 0) ∧ b = none := by
  rcases a with _ | n
  · exact ⟨Or.inl rfl, h⟩
  · by_cases hn : n = 0
    · subst hn
      simp [orT] at h
      exact ⟨Or.inr rfl, h⟩
    · simp [orT, hn] at h

theorem orT_some_parts (a b : Option Nat) (p : Nat) (h : orT a b = some p) :
    (a = some p ∧ p ≠ 0) ∨ ((a = none ∨ a = some 0) ∧ b = some p) := by
  rcases a with _ | n
  · exact Or.inr ⟨Or.inl rfl, h⟩
  · by_cases hn : n = 0
    · subst hn
      simp [orT] at h
      exact Or.inr ⟨Or.inr rfl, h⟩
    · simp [orT, hn] at h
      subst h
      exact Or.inl ⟨rfl, hn⟩

theorem runPass_nil (F : List Nat) (k0 : List RSpan) (m : PMap) :
    runPass F k0 [] m = ([], m, 0) := rfl

theorem runPass_cons (F : List Nat) (k0 : List RSpan) (s : RSpan)
    (rest : List RSpan) (m : PMap) :
    runPass F k0 (s :: rest) m
      = ((processSpan F k0 s m).1
          :: (runPass F k0 rest (processSpan F k0 s m).2.1).1,
         (runPass F k0 rest (processSpan F k0 s m).2.1).2.1,
         (processSpan F k0 s m).2.2
          + (runPass F k0 rest (processSpan F k0 s m).2.1).2.2) := rfl

theorem processSpan_sid (F : List Nat) (k0 : List RSpan) (s : RSpan)
    (m : PMap) : (processSpan F k0 s m).1.sid = s.sid := by
  rcases processSpan_spec F k0 s m with h | ⟨np, nps, _, _, _, _, _, _, hsp⟩
  · rw [h]
  · rcases hsp with h | h | ⟨p2, h⟩ | h <;> rw [h]

theorem processSpan_hasParentAttr (F : List Nat) (k0 : List RSpan) (s : RSpan)
    (m : PMap) : (processSpan F k0 s m).1.hasParentAttr = s.hasParentAttr := by
  rcases processSpan_spec F k0 s m with h | ⟨np, nps, _, _, _, _, _, _, hsp⟩
  · rw [h]
  · rcases hsp with h | h | ⟨p2, h⟩ | h <;> rw [h]

theorem goodUpdIn_mono (S S2 F K : List Nat) (hss : ∀ x, x ∈ S → x ∈ S2)
    (a b : PMap) (h : GoodUpdIn S F K a b) : GoodUpdIn S2 F K a b := by
  rcases h with ⟨x, np, hx, hnp, hwr, rfl⟩
  exact ⟨x, np, hss x hx, hnp, hwr, rfl⟩

theorem runPass_chain (F : List Nat) (k0 : List RSpan) :
    ∀ (L : List RSpan) (m : PMap),
      Relation.ReflTransGen (GoodUpdIn (L.map RSpan.sid) F (k0.map RSpan.sid))
        m (runPass F k0 L m).2.1 := by
  intro L
  induction L with
  | nil => intro m; exact Relation.ReflTransGen.refl
  | cons s rest ih =>
    intro m
    rw [runPass_cons]
    have h1 : Relation.ReflTransGen
        (GoodUpdIn ((s :: rest).map RSpan.sid) F (k0.map RSpan.sid))
        m (processSpan F k0 s m).2.1 := by
      rcases processSpan_spec F k0 s m with h | ⟨np, nps, _, hga, hwr, _, hm, _, _⟩
      · rw [h]
      · rw [hm]
        exact Relation.ReflTransGen.single
          ⟨s.sid, np, by simp, hga, hwr, rfl⟩
    have h2 := ih (processSpan F k0 s m).2.1
    exact h1.trans (h2.mono (fun a b hab =>
      goodUpdIn_mono _ _ F _ (fun x hx => by simp at hx ⊢; exact Or.inr hx) a b hab))

theorem runPass_sids (F : List Nat) (k0 : List RSpan) :
    ∀ (L : List RSpan) (m : PMap),
      ((runPass F k0 L m).1).map RSpan.sid = L.map RSpan.sid := by
  intro L
  induction L with
  | nil => intro m; rfl
  | cons s rest ih =>
    intro m
    rw [runPass_cons]
    simp only [List.map_cons]
    rw [processSpan_sid, ih]

theorem runPass_of_stable (F : List Nat) (k0 : List RSpan) :
    ∀ (L : List RSpan) (m : PMap),
      (∀ s ∈ L, processSpan F k0 s m = (s, m, 0)) →
      runPass F k0 L m = (L, m, 0) := by
  intro L
  induction L with
  | nil => intro m _; rfl
  | cons s rest ih =>
    intro m h
    rw [runPass_cons, h s (List.mem_cons_self s rest)]
    have h2 := ih m (fun t ht => h t (List.mem_cons_of_mem s ht))
    simp only [h2]

theorem runPass_establishes (F : List Nat) (k0 : List RSpan) :
    ∀ (L : List RSpan) (m : PMap),
      (∀ s ∈ L, s.hasParentAttr = true) →
      (L.map RSpan.sid).Nodup →
      ∀ s2 ∈ (runPass F k0 L m).1,
        processSpan F k0 s2 (runPass F k0 L m).2.1
          = (s2, (runPass F k0 L m).2.1, 0) := by
  intro L
  induction L with
  | nil =>
    intro m _ _ s2 hs2
    rw [runPass_nil] at hs2
    simp at hs2
  | cons s rest ih =>
    intro m hA hnd s2 hs2
    have hsid_not : s.sid ∉ rest.map RSpan.sid := by
      simp only [List.map_cons, List.nodup_cons] at hnd
      exact hnd.1
    rw [runPass_cons] at hs2
    rw [runPass_cons]
    rcases List.mem_cons.mp hs2 with hhead | hmem
    · -- s2 is the processed head span
      subst hhead
      have hchain := runPass_chain F k0 rest (processSpan F k0 s m).2.1
      rcases hpar : orT s.parent (pget m s.sid) with _ | p
      · -- no effective parent: untouched, and its map entry stays away
        have heq := processSpan_parent_none F k0 s m hpar
        have hparts := orT_none_parts _ _ hpar
        simp only [heq]
        simp only [heq] at hchain
        apply processSpan_parent_none
        rw [orT_noneish _ _ hparts.1]
        rw [pget_chain_stable _ _ _ _ _ hchain s.sid hsid_not]
        exact hparts.2
      · by_cases hg : p ≠ 0 ∧ p ∈ F
        · rcases hfind : find_nearest_non_filtered_ancestor m F
            (k0.map RSpan.sid) s.sid with _ | np
          · -- filtered parent but no surviving ancestor: stays orphaned
            have heq := processSpan_no_ancestor F k0 s m p hpar hg hfind
            simp only [heq]
            simp only [heq] at hchain
            have hpar2 : orT s.parent
                (pget (runPass F k0 rest m).2.1 s.sid) = some p := by
              rcases orT_some_parts _ _ _ hpar with ⟨ha, hp0⟩ | ⟨ha, hb⟩
              · rw [ha]
                exact orT_some_left p _ hp0
              · rw [orT_noneish _ _ ha]
                rw [pget_chain_stable _ _ _ _ _ hchain s.sid hsid_not]
                exact hb
            apply processSpan_no_ancestor _ _ _ _ p hpar2 hg
            rw [find_nearest_none_iff] at hfind ⊢
            intro hsv
            exact hfind ((hasSurvivor_chain _ _ _ _ _ hchain s.sid).mp hsv)
          · -- reparented to a good ancestor: new parent is unfiltered
            rcases find_nearest_some_hasSurvivor m F (k0.map RSpan.sid) s.sid
              np hfind with ⟨hga, hwr⟩
            rcases kfind_isSome_of_mem k0 np hga.2.2 with ⟨nps, hkf⟩
            have hAs : s.hasParentAttr = true := hA s (List.mem_cons_self s rest)
            have heq := processSpan_tierA F k0 s m p np nps hpar hg hfind hkf hAs
            simp only [heq]
            apply processSpan_not_filtered _ _ _ _ np
            · exact orT_some_left np _ hga.1
            · intro hc
              exact hga.2.1 hc.2
        · -- effective parent not filtered: untouched and stays so
          have heq := processSpan_not_filtered F k0 s m p hpar hg
          simp only [heq]
          simp only [heq] at hchain
          have hpar2 : orT s.parent
              (pget (runPass F k0 rest m).2.1 s.sid) = some p := by
            rcases orT_some_parts _ _ _ hpar with ⟨ha, hp0⟩ | ⟨ha, hb⟩
            · rw [ha]
              exact orT_some_left p _ hp0
            · rw [orT_noneish _ _ ha]
              rw [pget_chain_stable _ _ _ _ _ hchain s.sid hsid_not]
              exact hb
          exact processSpan_not_filtered _ _ _ _ p hpar2 hg
    · -- spans processed later in the pass
      have hA2 : ∀ t ∈ rest, t.hasParentAttr = true :=
        fun t ht => hA t (List.mem_cons_of_mem s ht)
      have hnd2 : (rest.map RSpan.sid).Nodup := by
        simp only [List.map_cons, List.nodup_cons] at hnd
        exact hnd.2
      exact ih (processSpan F k0 s m).2.1 hA2 hnd2 s2 hmem

/- ===== Lemmas about the bounded while loop ===== -/

theorem restructureLoop_stable (F : List Nat) (k0 : List RSpan) (b : Nat)
    (hb : 1 ≤ b) (L : List RSpan) (m : PMap)
    (h : ∀ s ∈ L, processSpan F k0 s m = (s, m, 0)) :
    restructureLoop F k0 b L m = (L, m, 0, 1) := by
  obtain ⟨c, rfl⟩ : ∃ c, b = c + 1 := ⟨b - 1, by omega⟩
  have hp := runPass_of_stable F k0 L m h
  simp only [restructureLoop, hp, if_true]

theorem restructureLoop_result (F : List Nat) (k0 : List RSpan) (b : Nat)
    (hb : 2 ≤ b) (L : List RSpan) (m : PMap)
    (hA : ∀ s ∈ L, s.hasParentAttr = true)
    (hnd : (L.map RSpan.sid).Nodup) :
    (restructureLoop F k0 b L m).1 = (runPass F k0 L m).1 ∧
    (restructureLoop F k0 b L m).2.1 = (runPass F k0 L m).2.1 := by
  obtain ⟨c, rfl⟩ : ∃ c, b = c + 1 := ⟨b - 1, by omega⟩
  simp only [restructureLoop]
  by_cases hz : (runPass F k0 L m).2.2 = 0
  · rw [if_pos hz]
    exact ⟨rfl, rfl⟩
  · rw [if_neg hz]
    have hst := runPass_establishes F k0 L m hA hnd
    have hloop := restructureLoop_stable F k0 c (by omega)
      (runPass F k0 L m).1 (runPass F k0 L m).2.1 hst
    rw [hloop]
    exact ⟨rfl, rfl⟩

theorem restructureLoop_iters_le (F : List Nat) (k0 : List RSpan) :
    ∀ (b : Nat) (L : List RSpan) (m : PMap),
      (restructureLoop F k0 b L m).2.2.2 ≤ b := by
  intro b
  induction b with
  | zero => intro L m; simp [restructureLoop]
  | succ b ih =>
    intro L m
    simp only [restructureLoop]
    by_cases hz : (runPass F k0 L m).2.2 = 0
    · rw [if_pos hz]
      show 1 ≤ b + 1
      omega
    · rw [if_neg hz]
      show (restructureLoop F k0 b (runPass F k0 L m).1
        (runPass F k0 L m).2.1).2.2.2 + 1 ≤ b + 1
      have := ih (runPass F k0 L m).1 (runPass F k0 L m).2.1
      omega

theorem restructureLoop_early_stop (F : List Nat) (k0 : List RSpan) (b : Nat)
    (L : List RSpan) (m : PMap) (hz : (runPass F k0 L m).2.2 = 0) :
    restructureLoop F k0 (b + 1) L m
      = ((runPass F k0 L m).1, (runPass F k0 L m).2.1, 0, 1) := by
  simp only [restructureLoop]
  rw [if_pos hz]

/- ===== Frame properties: what restructuring may touch ===== -/

theorem aget_aset_ne (attrs : List (String × AttrVal)) (k : String) (v : AttrVal)
    (k2 : String) (h : k2 ≠ k) : aget (aset attrs k v) k2 = aget attrs k2 := by
  induction attrs with
  | nil =>
    show (if k = k2 then some v else aget [] k2) = aget [] k2
    rw [if_neg (fun he => h he.symm)]
  | cons e rest ih =>
    show aget (if e.1 = k then (k, v) :: rest else e :: aset rest k v) k2
      = aget (e :: rest) k2
    by_cases he : e.1 = k
    · rw [if_pos he]
      show (if k = k2 then some v else aget rest k2)
        = if e.1 = k2 then some e.2 else aget rest k2
      rw [if_neg (fun hh => h hh.symm), if_neg (by rw [he]; exact fun hh => h hh.symm)]
    · rw [if_neg he]
      show (if e.1 = k2 then some e.2 else aget (aset rest k v) k2)
        = if e.1 = k2 then some e.2 else aget rest k2
      rw [ih]

theorem spanFrame_refl (F K : List Nat) (s : RSpan) : SpanFrame F K s s :=
  ⟨rfl, rfl, rfl, rfl, rfl, rfl, rfl, Or.inl rfl, ⟨[], by simp⟩,
    fun _ _ _ _ => rfl⟩

theorem spanFrame_trans (F K : List Nat) (s s2 s3 : RSpan)
    (h1 : SpanFrame F K s s2) (h2 : SpanFrame F K s2 s3) : SpanFrame F K s s3 := by
  obtain ⟨a1, b1, c1, d1, e1, f1, g1, p1, ⟨x1, l1⟩, at1⟩ := h1
  obtain ⟨a2, b2, c2, d2, e2, f2, g2, p2, ⟨x2, l2⟩, at2⟩ := h2
  refine ⟨a2.trans a1, b2.trans b1, c2.trans c1, d2.trans d1, e2.trans e1,
    f2.trans f1, g2.trans g1, ?_, ⟨x1 ++ x2, by rw [l2, l1, List.append_assoc]⟩,
    fun key hk1 hk2 hk3 => (at2 key hk1 hk2 hk3).trans (at1 key hk1 hk2 hk3)⟩
  rcases p2 with hp2 | ⟨np, hnp, hp2⟩
  · rw [hp2]
    exact p1
  · exact Or.inr ⟨np, hnp, hp2⟩

theorem processSpan_frame (F : List Nat) (k0 : List RSpan) (s : RSpan)
    (m : PMap) : SpanFrame F (k0.map RSpan.sid) s (processSpan F k0 s m).1 := by
  rcases processSpan_spec F k0 s m with h | ⟨np, nps, _, hga, _, _, _, _, hsp⟩
  · rw [h]
    exact spanFrame_refl _ _ s
  · rcases hsp with h | h | ⟨p2, h⟩ | h <;> rw [h]
    · exact ⟨rfl, rfl, rfl, rfl, rfl, rfl, rfl, Or.inr ⟨np, hga, rfl⟩,
        ⟨[], by simp⟩, fun _ _ _ _ => rfl⟩
    · exact ⟨rfl, rfl, rfl, rfl, rfl, rfl, rfl, Or.inl rfl, ⟨[np], rfl⟩,
        fun _ _ _ _ => rfl⟩
    · refine ⟨rfl, rfl, rfl, rfl, rfl, rfl, rfl, Or.inl rfl, ⟨[], by simp⟩, ?_⟩
      intro key hk1 hk2 hk3
      show aget (reparentAttrs s.attributes p2 np nps.name) key
        = aget s.attributes key
      unfold reparentAttrs
      rw [aget_aset_ne _ _ _ _ hk3, aget_aset_ne _ _ _ _ hk2,
        aget_aset_ne _ _ _ _ hk1]
    · exact spanFrame_refl _ _ s

theorem forall2_trans_of {α : Type} {R : α → α → Prop}
    (htrans : ∀ a b c, R a b → R b c → R a c) :
    ∀ (L1 L2 L3 : List α), List.Forall₂ R L1 L2 → List.Forall₂ R L2 L3 →
      List.Forall₂ R L1 L3 := by
  intro L1
  induction L1 with
  | nil =>
    intro L2 L3 h12 h23
    cases h12
    cases h23
    exact List.Forall₂.nil
  | cons a L1 ih =>
    intro L2 L3 h12 h23
    cases h12 with
    | cons hab h12rest =>
      cases h23 with
      | cons hbc h23rest =>
        exact List.Forall₂.cons (htrans _ _ _ hab hbc) (ih _ _ h12rest h23rest)

theorem runPass_frame (F : List Nat) (k0 : List RSpan) :
    ∀ (L : List RSpan) (m : PMap),
      List.Forall₂ (SpanFrame F (k0.map RSpan.sid)) L (runPass F k0 L m).1 := by
  intro L
  induction L with
  | nil => intro m; exact List.Forall₂.nil
  | cons s rest ih =>
    intro m
    rw [runPass_cons]
    exact List.Forall₂.cons (processSpan_frame F k0 s m)
      (ih (processSpan F k0 s m).2.1)

theorem restructureLoop_frame (F : List Nat) (k0 : List RSpan) :
    ∀ (b : Nat) (L : List RSpan) (m : PMap),
      List.Forall₂ (SpanFrame F (k0.map RSpan.sid)) L
        (restructureLoop F k0 b L m).1 := by
  intro b
  induction b with
  | zero =>
    intro L m
    exact List.forall₂_same.mpr (fun s _ => spanFrame_refl _ _ s)
  | succ b ih =>
    intro L m
    simp only [restructureLoop]
    by_cases hz : (runPass F k0 L m).2.2 = 0
    · rw [if_pos hz]
      exact runPass_frame F k0 L m
    · rw [if_neg hz]
      show List.Forall₂ _ L (restructureLoop F k0 b (runPass F k0 L m).1
        (runPass F k0 L m).2.1).1
      exact forall2_trans_of (spanFrame_trans F (k0.map RSpan.sid)) _ _ _
        (runPass_frame F k0 L m)
        (ih (runPass F k0 L m).1 (runPass F k0 L m).2.1)

theorem restructure_frame (all kept : List RSpan) (F : List Nat) :
    List.Forall₂ (SpanFrame F (kept.map RSpan.sid)) kept
      (restructure_trace_spans all kept F) := by
  unfold restructure_trace_spans restructureFull
  by_cases hF : F = []
  · rw [if_pos hF]
    exact List.forall₂_same.mpr (fun s _ => spanFrame_refl _ _ s)
  · rw [if_neg hF, if_neg hF]
    exact restructureLoop_frame F kept 10 kept (buildParentMap all)

/- ===== Orphan preservation and parent-map characterization ===== -/

theorem goodUpdIn_goodUpd (S F K : List Nat) (a b : PMap)
    (h : GoodUpdIn S F K a b) : GoodUpd F K a b := by
  rcases h with ⟨x, np, _, hnp, hwr, rfl⟩
  exact ⟨x, np, hnp, hwr, rfl⟩

theorem hasSurvivor_chain2 (F K : List Nat) (mm mm2 : PMap)
    (h : Relation.ReflTransGen (GoodUpd F K) mm mm2) (s : Nat) :
    HasSurvivor mm2 F K s ↔ HasSurvivor mm F K s := by
  induction h with
  | refl => exact Iff.rfl
  | tail hseg hstep ih =>
    rcases hstep with ⟨x, np, hnp, hxr, rfl⟩
    exact (hasSurvivor_pset_iff _ F K x np hnp hxr s).trans ih

theorem pget_fold_not_mem (spans : List RSpan) (k : Nat)
    (hk : k ∉ spans.map RSpan.sid) :
    ∀ acc : PMap,
      pget (spans.foldl (fun m span =>
        match span.parent with
        | some p => if p ≠ 0 then pset m span.sid p else m
        | none => m) acc) k = pget acc k := by
  induction spans with
  | nil => intro acc; rfl
  | cons t rest ih =>
    intro acc
    have hkt : k ≠ t.sid := by
      intro he
      exact hk (by simp [he])
    have hkr : k ∉ rest.map RSpan.sid := by
      intro he
      exact hk (by simp [he])
    simp only [List.foldl_cons]
    rw [ih hkr]
    rcases t.parent with _ | p
    · rfl
    · by_cases hp : p = 0
      · simp [hp]
      · simp only [hp, ne_eq, not_false_iff, if_true]
        exact pget_pset_ne acc t.sid p k hkt

theorem buildParentMap_pget (spans : List RSpan)
    (hnd : (spans.map RSpan.sid).Nodup) (s : RSpan) (hs : s ∈ spans) :
    pget (buildParentMap spans) s.sid
      = match s.parent with
        | some p => if p = 0 then none else some p
        | none => none := by
  suffices h : ∀ acc : PMap,
      pget (spans.foldl (fun m span =>
        match span.parent with
        | some p => if p ≠ 0 then pset m span.sid p else m
        | none => m) acc) s.sid
      = match s.parent with
        | some p => if p = 0 then pget acc s.sid else some p
        | none => pget acc s.sid by
    have h2 := h []
    unfold buildParentMap
    rw [h2]
    rcases s.parent with _ | p
    · rfl
    · by_cases hp : p = 0 <;> simp [hp, pget]
  induction spans with
  | nil => intro acc; simp at hs
  | cons t rest ih =>
    intro acc
    simp only [List.map_cons, List.nodup_cons] at hnd
    rcases List.mem_cons.mp hs with rfl | hmem
    · have hnot : s.sid ∉ rest.map RSpan.sid := hnd.1
      simp only [List.foldl_cons]
      rw [pget_fold_not_mem rest s.sid hnot]
      rcases s.parent with _ | p
      · rfl
      · by_cases hp : p = 0
        · simp [hp]
        · simp only [hp, ne_eq, not_false_iff, if_true, if_false]
          exact pget_pset_self acc s.sid p
    · have hsid : s.sid ∈ rest.map RSpan.sid :=
        List.mem_map.mpr ⟨s, hmem, rfl⟩
      have htne : t.sid ≠ s.sid := fun he => hnd.1 (he ▸ hsid)
      simp only [List.foldl_cons]
      have hrec := ih hnd.2 hmem
      rw [hrec]
      have hacc : pget (match t.parent with
          | some p => if p ≠ 0 then pset acc t.sid p else acc
          | none => acc) s.sid = pget acc s.sid := by
        rcases t.parent with _ | p
        · rfl
        · by_cases hp : p = 0
          · simp [hp]
          · simp only [hp, ne_eq, not_false_iff, if_true]
            exact pget_pset_ne acc t.sid p s.sid (fun he => htne he.symm)
      rw [hacc]

theorem buildParentMap_pget_not_mem (spans : List RSpan) (k : Nat)
    (hk : k ∉ spans.map RSpan.sid) : pget (buildParentMap spans) k = none := by
  unfold buildParentMap
  rw [pget_fold_not_mem spans k hk []]
  rfl

theorem runPass_goodUpd_chain (F : List Nat) (k0 : List RSpan)
    (L : List RSpan) (m : PMap) :
    Relation.ReflTransGen (GoodUpd F (k0.map RSpan.sid)) m
      (runPass F k0 L m).2.1 :=
  (runPass_chain F k0 L m).mono
    (fun a b hab => goodUpdIn_goodUpd _ _ _ a b hab)

theorem runPass_orphan (F : List Nat) (k0 : List RSpan) (m0 : PMap) :
    ∀ (L : List RSpan) (m : PMap),
      Relation.ReflTransGen (GoodUpd F (k0.map RSpan.sid)) m0 m →
      List.Forall₂ (fun s s2 => s2.sid = s.sid ∧
        (¬ HasSurvivor m0 F (k0.map RSpan.sid) s.sid → s2.parent = s.parent))
        L (runPass F k0 L m).1 := by
  intro L
  induction L with
  | nil => intro m _; exact List.Forall₂.nil
  | cons s rest ih =>
    intro m hchain
    rw [runPass_cons]
    refine List.Forall₂.cons ⟨processSpan_sid F k0 s m, ?_⟩ ?_
    · intro hns
      rcases processSpan_spec F k0 s m with h | ⟨np, nps, _, hga, hwr, _, _, _, _⟩
      · rw [h]
      · exfalso
        apply hns
        rw [← hasSurvivor_chain2 F (k0.map RSpan.sid) m0 m hchain s.sid]
        exact ⟨np, hga, hwr⟩
    · apply ih
      rcases processSpan_spec F k0 s m with h | ⟨np, nps, _, hga, hwr, _, hm, _, _⟩
      · rw [h]
        exact hchain
      · rw [hm]
        exact hchain.tail ⟨s.sid, np, hga, hwr, rfl⟩

theorem restructureLoop_orphan (F : List Nat) (k0 : List RSpan) (m0 : PMap) :
    ∀ (b : Nat) (L : List RSpan) (m : PMap),
      Relation.ReflTransGen (GoodUpd F (k0.map RSpan.sid)) m0 m →
      List.Forall₂ (fun s s2 => s2.sid = s.sid ∧
        (¬ HasSurvivor m0 F (k0.map RSpan.sid) s.sid → s2.parent = s.parent))
        L (restructureLoop F k0 b L m).1 := by
  intro b
  induction b with
  | zero =>
    intro L m _
    exact List.forall₂_same.mpr (fun s _ => ⟨rfl, fun _ => rfl⟩)
  | succ b ih =>
    intro L m hchain
    simp only [restructureLoop]
    by_cases hz : (runPass F k0 L m).2.2 = 0
    · rw [if_pos hz]
      exact runPass_orphan F k0 m0 L m hchain
    · rw [if_neg hz]
      show List.Forall₂ _ L (restructureLoop F k0 b (runPass F k0 L m).1
        (runPass F k0 L m).2.1).1
      have h1 := runPass_orphan F k0 m0 L m hchain
      have h2 := ih (runPass F k0 L m).1 (runPass F k0 L m).2.1
        (hchain.trans (runPass_goodUpd_chain F k0 L m))
      refine forall2_trans_of ?_ _ _ _ h1 h2
      intro a b2 c hab hbc
      refine ⟨hbc.1.trans hab.1, ?_⟩
      intro hns
      rw [hbc.2 (by rw [hab.1]; exact hns), hab.2 hns]

theorem restructure_orphan (all kept : List RSpan) (F : List Nat) :
    List.Forall₂ (fun s s2 => s2.sid = s.sid ∧
      (¬ HasSurvivor (buildParentMap all) F (kept.map RSpan.sid) s.sid →
        s2.parent = s.parent))
      kept (restructure_trace_spans all kept F) := by
  unfold restructure_trace_spans restructureFull
  by_cases hF : F = []
  · rw [if_pos hF]
    exact List.forall₂_same.mpr (fun s _ => ⟨rfl, fun _ => rfl⟩)
  · rw [if_neg hF, if_neg hF]
    exact restructureLoop_orphan F kept (buildParentMap all) 10 kept
      (buildParentMap all) Relation.ReflTransGen.refl

theorem processSpan_count_one (F : List Nat) (k0 : List RSpan) (s : RSpan)
    (m : PMap) (p np : Nat) (nps : RSpan)
    (hpar : orT s.parent (pget m s.sid) = some p)
    (hg : p ≠ 0 ∧ p ∈ F)
    (hfind : find_nearest_non_filtered_ancestor m F (k0.map RSpan.sid) s.sid
      = some np)
    (hkf : kfind k0 np = some nps) :
    (processSpan F k0 s m).2.2 = 1 := by
  rcases hA : s.hasParentAttr with _ | _
  · rcases hL : s.hasLinksAttr with _ | _
    · rw [processSpan_tierC F k0 s m p np nps hpar hg hfind hkf hA hL]
    · rcases hLL : s.linksIsList with _ | _
      · rw [processSpan_tierB_nolist F k0 s m p np nps hpar hg hfind hkf hA hL hLL]
      · rw [processSpan_tierB_list F k0 s m p np nps hpar hg hfind hkf hA hL hLL]
  · rw [processSpan_tierA F k0 s m p np nps hpar hg hfind hkf hA]

theorem restructureFull_spec (all kept : List RSpan) (F : List Nat)
    (hF : F ≠ []) (hA : ∀ s ∈ kept, s.hasParentAttr = true)
    (hnd : (kept.map RSpan.sid).Nodup) :
    (restructureFull all kept F).1
      = (runPass F kept kept (buildParentMap all)).1 ∧
    (restructureFull all kept F).2
      = (runPass F kept kept (buildParentMap all)).2.1 := by
  unfold restructureFull
  rw [if_neg hF]
  exact restructureLoop_result F kept 10 (by omega) kept (buildParentMap all)
    hA hnd

theorem stableSpan_any_k0 (F : List Nat) (k0 k02 : List RSpan)
    (hk : k0.map RSpan.sid = k02.map RSpan.sid) (s : RSpan) (m : PMap)
    (h : processSpan F k0 s m = (s, m, 0)) :
    processSpan F k02 s m = (s, m, 0) := by
  rcases hpar : orT s.parent (pget m s.sid) with _ | p
  · exact processSpan_parent_none F k02 s m hpar
  · by_cases hg : p ≠ 0 ∧ p ∈ F
    · rcases hfind : find_nearest_non_filtered_ancestor m F (k02.map RSpan.sid)
        s.sid with _ | np
      · exact processSpan_no_ancestor F k02 s m p hpar hg hfind
      · exfalso
        rw [← hk] at hfind
        rcases find_nearest_some_hasSurvivor m F (k0.map RSpan.sid) s.sid np
          hfind with ⟨hga, _⟩
        rcases kfind_isSome_of_mem k0 np hga.2.2 with ⟨nps, hkf⟩
        have hone := processSpan_count_one F k0 s m p np nps hpar hg hfind hkf
        rw [h] at hone
        simp at hone
    · exact processSpan_not_filtered F k02 s m p hpar hg

theorem aget_aset_self (attrs : List (String × AttrVal)) (k : String)
    (v : AttrVal) : aget (aset attrs k v) k = some v := by
  induction attrs with
  | nil => simp [aset, aget]
  | cons e rest ih =>
    by_cases he : e.1 = k
    · simp [aset, he, aget]
    · simp [aset, he, aget, ih]

/-- C6 (corrected): the duration attribute is attached exactly when both
timestamps are truthy (present and nonzero), with value
(end - start) / 1000000 even when that is negative; when either timestamp
is falsy the attribute map keeps its previous binding for duration_ms.
There is no end-at-least-start check in the source. -/
theorem on_end_duration_amended (env ver : String) (span : RSpan) :
    ((truthyTime span.endTime = true ∧ truthyTime span.startTime = true) →
      ∀ e s, span.endTime = some e → span.startTime = some s →
        aget (on_end env ver span).attributes "duration_ms"
          = some (AttrVal.rat ((e - s : ℚ) / 1000000))) ∧
    (¬ (truthyTime span.endTime = true ∧ truthyTime span.startTime = true) →
      aget (on_end env ver span).attributes "duration_ms"
        = aget span.attributes "duration_ms") := by
  constructor
  · rintro ⟨he, hs⟩ e s hse hss
    simp only [on_end, hse, hss]
    rw [if_pos (by rw [hse] at he; rw [hss] at hs; exact ⟨he, hs⟩)]
    exact aget_aset_self _ _ _
  · intro hnot
    simp only [on_end]
    rw [if_neg hnot]
    have h1 : ("duration_ms" : String) ≠ "deployment.environment" := by decide
    have h2 : ("duration_ms" : String) ≠ "service.version" := by decide
    have h3 : ("duration_ms" : String) ≠ "custom.processor" := by decide
    have h4 : ("duration_ms" : String) ≠ "agent.type" := by decide
    by_cases hpref : span.name.startsWith "google_adk" = true
    · rw [if_pos hpref]
      rw [aget_aset_ne _ _ _ _ h4, aget_aset_ne _ _ _ _ h3,
        aget_aset_ne _ _ _ _ h2, aget_aset_ne _ _ _ _ h1]
    · rw [if_neg hpref]
      rw [aget_aset_ne _ _ _ _ h3, aget_aset_ne _ _ _ _ h2,
        aget_aset_ne _ _ _ _ h1]

/-- C6 counterexample: with start_time = 2 and end_time = 1 (end before
start, both present), the claim says the duration attribute is omitted, but
on_end attaches it (with a negative value). -/
theorem on_end_duration_counterexample :
    aget (on_end "development" "1.0.0"
        { sid := 1, parent := none, name := "x", startTime := some 2,
          endTime := some 1, attributes := [], links := [] }).attributes
      "duration_ms" ≠ none := by decide

theorem on_end_duration_amended_witness :
    ((truthyTime (some (1 : Int)) = true ∧ truthyTime (some (2 : Int)) = true) ∧
      aget (on_end "development" "1.0.0"
          { sid := 1, parent := none, name := "x", startTime := some 2,
            endTime := some 1, attributes := [], links := [] }).attributes
        "duration_ms" = some (AttrVal.rat ((1 - 2 : ℚ) / 1000000))) := by
  refine ⟨⟨by decide, by decide⟩, ?_⟩
  exact (on_end_duration_amended "development" "1.0.0"
    { sid := 1, parent := none, name := "x", startTime := some 2,
      endTime := some 1, attributes := [], links := [] }).1
    ⟨by decide, by decide⟩ 1 2 rfl rfl

/-- C7 (confirmed): pattern compilation is a total function that skips
every pattern the regex oracle rejects (modeling the caught re.error), and
a span whose name matches any surviving valid pattern is still classified
as filtered. -/
theorem compile_patterns_invalid_skipped
    (compile : String → Option (String → Bool)) (strs : List String) :
    (∀ q ∈ compile_filter_patterns compile strs,
      ∃ st ∈ strs, compile st = some q) ∧
    (∀ st p, st ∈ strs → compile st = some p →
      ∀ span : RSpan, p span.name = true →
        should_filter_span span (compile_filter_patterns compile strs) = true) := by
  constructor
  · intro q hq
    rcases List.mem_filterMap.mp hq with ⟨st, hst, hc⟩
    exact ⟨st, hst, hc⟩
  · intro st p hst hc span hp
    have hmem : p ∈ compile_filter_patterns compile strs :=
      List.mem_filterMap.mpr ⟨st, hst, hc⟩
    have hne : (compile_filter_patterns compile strs).isEmpty = false := by
      rcases hL : compile_filter_patterns compile strs with _ | ⟨q, rest⟩
      · rw [hL] at hmem
        simp at hmem
      · rfl
    unfold should_filter_span
    rw [hne]
    simp only [Bool.false_eq_true, if_false]
    exact List.any_eq_true.mpr ⟨p, hmem, hp⟩

theorem compile_patterns_invalid_skipped_witness :
    should_filter_span
      { sid := 1, parent := none, name := "internal.noise", startTime := none,
        endTime := none, attributes := [], links := [] }
      (compile_filter_patterns
        (fun st => if st = "(" then none else some (fun nm => st == nm))
        ["(", "internal.noise"]) = true := by
  refine (compile_patterns_invalid_skipped
    (fun st => if st = "(" then none else some (fun nm => st == nm))
    ["(", "internal.noise"]).2 "internal.noise"
    (fun nm => "internal.noise" == nm) (by decide) rfl
    { sid := 1, parent := none, name := "internal.noise", startTime := none,
      endTime := none, attributes := [], links := [] } (by decide)

/-- C8 (confirmed): export returns the outcome of the downstream sink
unchanged when the sink returns a result, and maps a raised exception
(the error branch of the sink) to FAILURE instead of propagating it. -/
theorem exportBatch_sink_outcome (patterns : List (String → Bool))
    (reparentEnv : Option String)
    (sink : List RSpan → Except String SpanExportResult)
    (spans : List RSpan) :
    (∀ r, sink (processedSpans patterns reparentEnv spans) = Except.ok r →
      exportBatch patterns reparentEnv sink spans = r) ∧
    (∀ e, sink (processedSpans patterns reparentEnv spans) = Except.error e →
      exportBatch patterns reparentEnv sink spans
        = SpanExportResult.failure) := by
  constructor
  · intro r hr
    unfold exportBatch exportSpansImpl
    rw [hr]
    cases r <;> rfl
  · intro e he
    unfold exportBatch exportSpansImpl
    rw [he]

theorem exportBatch_sink_outcome_witness :
    exportBatch [] none (fun _ => Except.ok SpanExportResult.success) [] =
      SpanExportResult.success ∧
    exportBatch [] none (fun _ => Except.error "network down") [] =
      SpanExportResult.failure := by
  constructor
  · exact (exportBatch_sink_outcome [] none
      (fun _ => Except.ok SpanExportResult.success) []).1
      SpanExportResult.success rfl
  · exact (exportBatch_sink_outcome [] none
      (fun _ => Except.error "network down") []).2 "network down" rfl

/-- C2 (confirmed): when no span name matches any filter pattern (in
particular with an empty pattern list), export forwards exactly the input
span sequence, unchanged and in order, to the downstream sink. -/
theorem export_passthrough_when_no_match (patterns : List (String → Bool))
    (reparentEnv : Option String)
    (sink : List RSpan → Except String SpanExportResult)
    (spans : List RSpan)
    (h : ∀ s ∈ spans, should_filter_span s patterns = false) :
    processedSpans patterns reparentEnv spans = spans ∧
    exportBatch patterns reparentEnv sink spans = exportSpansImpl sink spans := by
  have hfilter : spans.filter (fun s => should_filter_span s patterns) = [] :=
    List.filter_eq_nil_iff.mpr (fun s hs => by rw [h s hs]; simp)
  have hkeep : spans.filter (fun s => !(should_filter_span s patterns)) = spans :=
    List.filter_eq_self.mpr (fun s hs => by rw [h s hs]; rfl)
  have hps : processedSpans patterns reparentEnv spans = spans := by
    unfold processedSpans
    simp only [hfilter, hkeep, List.map_nil, if_pos]
  exact ⟨hps, by unfold exportBatch; rw [hps]⟩

theorem export_passthrough_when_no_match_witness :
    (∀ s ∈ ([{ sid := 1, parent := none, name := "root", startTime := none,
                endTime := none, attributes := [], links := [] }] : List RSpan),
      should_filter_span s [] = false) ∧
    processedSpans [] none
      [{ sid := 1, parent := none, name := "root", startTime := none,
         endTime := none, attributes := [], links := [] }]
      = [{ sid := 1, parent := none, name := "root", startTime := none,
           endTime := none, attributes := [], links := [] }] := by
  refine ⟨by decide, ?_⟩
  exact (export_passthrough_when_no_match [] none
    (fun _ => Except.ok SpanExportResult.success)
    [{ sid := 1, parent := none, name := "root", startTime := none,
       endTime := none, attributes := [], links := [] }] (by decide)).1

/-- C10 (confirmed): restructuring returns the kept spans positionally
(same count and order, same span ids), and each output span differs from
its input span in at most the parent reference (rewritten only to a good
ancestor), an appended suffix of links, and the three reparenting
diagnostic attributes; id, name, timestamps, capability flags, and every
other attribute binding are unchanged. -/
theorem restructure_frame_property (all kept : List RSpan) (F : List Nat) :
    List.Forall₂ (SpanFrame F (kept.map RSpan.sid)) kept
      (restructure_trace_spans all kept F) :=
  restructure_frame all kept F

/-- C9 (confirmed): restructuring terminates on every input, including
cyclic parent chains.  The ancestor walk stabilizes once the fuel reaches
the number of parent-map entries plus one, because the visited set admits
each id at most once; the rewrite loop performs at most 10 iterations and
returns immediately after a pass that makes zero rewrites. -/
theorem restructure_terminates :
    (∀ (m : PMap) (F K : List Nat) (s : Nat) (fuel : Nat),
      m.length + 1 ≤ fuel →
      findNearestAux m F K fuel [] (pget m s)
        = find_nearest_non_filtered_ancestor m F K s) ∧
    (∀ (F : List Nat) (k0 L : List RSpan) (m : PMap),
      (restructureLoop F k0 10 L m).2.2.2 ≤ 10) ∧
    (∀ (F : List Nat) (k0 L : List RSpan) (m : PMap) (b : Nat),
      (runPass F k0 L m).2.2 = 0 →
      restructureLoop F k0 (b + 1) L m
        = ((runPass F k0 L m).1, (runPass F k0 L m).2.1, 0, 1)) := by
  refine ⟨?_, ?_, ?_⟩
  · intro m F K s fuel hfuel
    exact find_nearest_fuel_stable m F K s fuel hfuel
  · intro F k0 L m
    exact restructureLoop_iters_le F k0 10 L m
  · intro F k0 L m b hz
    exact restructureLoop_early_stop F k0 b L m hz

theorem restructure_terminates_witness :
    (([((2 : Nat), (2 : Nat)), (3, 2)] : PMap).length + 1 ≤ 25 ∧
      findNearestAux [(2, 2), (3, 2)] [2] [1, 3] 25 [] (pget [(2, 2), (3, 2)] 3)
        = find_nearest_non_filtered_ancestor [(2, 2), (3, 2)] [2] [1, 3] 3) ∧
    restructure_trace_spans
      [{ sid := 2, parent := some 2, name := "internal.noise",
         startTime := none, endTime := none, attributes := [], links := [] },
       { sid := 3, parent := some 2, name := "leaf", startTime := none,
         endTime := none, attributes := [], links := [] }]
      [{ sid := 3, parent := some 2, name := "leaf", startTime := none,
         endTime := none, attributes := [], links := [] }]
      [2]
      = [{ sid := 3, parent := some 2, name := "leaf", startTime := none,
           endTime := none, attributes := [], links := [] }] := by
  refine ⟨⟨by decide, ?_⟩, by decide⟩
  exact restructure_terminates.1 [(2, 2), (3, 2)] [2] [1, 3] 3 25 (by decide)

/-- C1 (amended): after restructuring with reparenting enabled, a kept
span can keep an effective parent in the filtered set only when it has no
surviving ancestor at all: no id in its full parent chain is both
non-filtered and kept.  Moreover, every kept span either keeps its input
parent reference unchanged or is rewritten to a non-filtered kept span.
The original unconditional fixpoint claim fails for orphaned spans, see
the counterexample. -/
theorem restructure_fixpoint_amended (all kept : List RSpan) (F : List Nat)
    (hA : ∀ s ∈ kept, s.hasParentAttr = true)
    (hnd : (kept.map RSpan.sid).Nodup) :
    (∀ s2 ∈ restructure_trace_spans all kept F, ∀ p, s2.parent = some p →
      p ≠ 0 → p ∈ F →
      ¬ HasSurvivor (buildParentMap all) F (kept.map RSpan.sid) s2.sid) ∧
    List.Forall₂ (fun s s2 => s2.parent = s.parent ∨
      ∃ np, GoodAnc F (kept.map RSpan.sid) np ∧ s2.parent = some np)
      kept (restructure_trace_spans all kept F) := by
  constructor
  · intro s2 hs2 p hp hp0 hpF
    by_cases hF : F = []
    · subst hF
      simp at hpF
    · unfold restructure_trace_spans at hs2
      rw [if_neg hF] at hs2
      rcases restructureFull_spec all kept F hF hA hnd with ⟨h1, h2⟩
      rw [h1] at hs2
      have hst := runPass_establishes F kept kept (buildParentMap all) hA hnd
        s2 hs2
      have hchain := runPass_chain F kept kept (buildParentMap all)
      have hpar : orT s2.parent
          (pget (runPass F kept kept (buildParentMap all)).2.1 s2.sid)
          = some p := by
        rw [hp]
        exact orT_some_left p _ hp0
      rcases hfind : find_nearest_non_filtered_ancestor
          (runPass F kept kept (buildParentMap all)).2.1 F
          (kept.map RSpan.sid) s2.sid with _ | np
      · have hns := (find_nearest_none_iff _ F (kept.map RSpan.sid)
          s2.sid).mp hfind
        intro hsv
        exact hns ((hasSurvivor_chain _ _ _ _ _ hchain s2.sid).mpr hsv)
      · exfalso
        rcases find_nearest_some_hasSurvivor _ F (kept.map RSpan.sid) s2.sid
          np hfind with ⟨hga, _⟩
        rcases kfind_isSome_of_mem kept np hga.2.2 with ⟨nps, hkf⟩
        have hone := processSpan_count_one F kept s2
          (runPass F kept kept (buildParentMap all)).2.1 p np nps hpar
          ⟨hp0, hpF⟩ hfind hkf
        rw [hst] at hone
        simp at hone
  · exact (restructure_frame all kept F).imp
      (fun s s2 hf => hf.2.2.2.2.2.2.2.1)

theorem restructure_fixpoint_amended_witness :
    ((∀ s ∈ ([{ sid := 1, parent := none, name := "root", startTime := none,
                 endTime := none, attributes := [], links := [] },
               { sid := 3, parent := some 2, name := "leaf", startTime := none,
                 endTime := none, attributes := [], links := [] }] : List RSpan),
        s.hasParentAttr = true) ∧
      (([{ sid := 1, parent := none, name := "root", startTime := none,
           endTime := none, attributes := [], links := [] },
         { sid := 3, parent := some 2, name := "leaf", startTime := none,
           endTime := none, attributes := [], links := [] }] :
          List RSpan).map RSpan.sid).Nodup) ∧
    List.Forall₂ (fun (s s2 : RSpan) => s2.parent = s.parent ∨
      ∃ np, GoodAnc [2] ([1, 3]) np ∧ s2.parent = some np)
      [{ sid := 1, parent := none, name := "root", startTime := none,
         endTime := none, attributes := [], links := [] },
       { sid := 3, parent := some 2, name := "leaf", startTime := none,
         endTime := none, attributes := [], links := [] }]
      (restructure_trace_spans
        [{ sid := 1, parent := none, name := "root", startTime := none,
           endTime := none, attributes := [], links := [] },
         { sid := 2, parent := some 1, name := "internal.noise",
           startTime := none, endTime := none, attributes := [], links := [] },
         { sid := 3, parent := some 2, name := "leaf", startTime := none,
           endTime := none, attributes := [], links := [] }]
        [{ sid := 1, parent := none, name := "root", startTime := none,
           endTime := none, attributes := [], links := [] },
         { sid := 3, parent := some 2, name := "leaf", startTime := none,
           endTime := none, attributes := [], links := [] }]
        [2]) := by
  refine ⟨⟨by decide, by decide⟩, ?_⟩
  exact (restructure_fixpoint_amended
    [{ sid := 1, parent := none, name := "root", startTime := none,
       endTime := none, attributes := [], links := [] },
     { sid := 2, parent := some 1, name := "internal.noise",
       startTime := none, endTime := none, attributes := [], links := [] },
     { sid := 3, parent := some 2, name := "leaf", startTime := none,
       endTime := none, attributes := [], links := [] }]
    [{ sid := 1, parent := none, name := "root", startTime := none,
       endTime := none, attributes := [], links := [] },
     { sid := 3, parent := some 2, name := "leaf", startTime := none,
       endTime := none, attributes := [], links := [] }]
    [2] (by decide) (by decide)).2

/-- C1 counterexample: a batch with a filtered root (id 2) and a kept child
(id 3) pointing at it.  After restructuring, the kept child still has
effective parent 2, which is in the filtered set, so the claim that no kept
span keeps a filtered effective parent is false as stated. -/
theorem restructure_fixpoint_counterexample :
    ¬ (∀ s2 ∈ restructure_trace_spans
        [{ sid := 2, parent := none, name := "internal.noise",
           startTime := none, endTime := none, attributes := [], links := [] },
         { sid := 3, parent := some 2, name := "leaf", startTime := none,
           endTime := none, attributes := [], links := [] }]
        [{ sid := 3, parent := some 2, name := "leaf", startTime := none,
           endTime := none, attributes := [], links := [] }]
        [2],
        ∀ p, s2.parent = some p → p ∉ ([2] : List Nat)) := by decide

theorem forall2_imp_mem {α β : Type} {R S : α → β → Prop} :
    ∀ {L1 : List α} {L2 : List β}, List.Forall₂ R L1 L2 →
      (∀ a ∈ L1, ∀ b, R a b → S a b) → List.Forall₂ S L1 L2 := by
  intro L1
  induction L1 with
  | nil =>
    intro L2 h _
    cases h
    exact List.Forall₂.nil
  | cons a L1 ih =>
    intro L2 h himp
    cases h with
    | cons hab hrest =>
      exact List.Forall₂.cons
        (himp a (List.mem_cons_self a L1) _ hab)
        (ih hrest (fun x hx b hb => himp x (List.mem_cons_of_mem a hx) b hb))

theorem rtg_pstep_stuck (m : PMap) (root a : Nat)
    (hroot : pget m root = none)
    (h : Relation.ReflTransGen (PStep m) root a) : a = root := by
  rcases Relation.ReflTransGen.cases_head h with heq | ⟨c, hstep, _⟩
  · exact heq.symm
  · rcases hstep with ⟨_, hc⟩
    rw [hroot] at hc
    cases hc

/-- C4 (amended): in a batch whose filtered root span (no parent) has kept
children, restructuring with reparenting enabled returns those children in
the output with their parent reference unchanged, still pointing at the
filtered root id.  They are left orphaned, not rewritten into parentless
roots as the original claim states; see the counterexample. -/
theorem restructure_filtered_root_children_amended
    (all kept : List RSpan) (F : List Nat) (root : Nat) (rs : RSpan)
    (hnda : (all.map RSpan.sid).Nodup)
    (hsub : ∀ s ∈ kept, s ∈ all)
    (hrootF : root ∈ F)
    (hrs : rs ∈ all) (hrsid : rs.sid = root) (hrspar : rs.parent = none) :
    List.Forall₂ (fun s s2 => s2.sid = s.sid ∧
      (s.parent = some root → s2.parent = some root))
      kept (restructure_trace_spans all kept F) := by
  have hrootmap : pget (buildParentMap all) root = none := by
    have := buildParentMap_pget all hnda rs hrs
    rw [hrsid, hrspar] at this
    exact this
  refine forall2_imp_mem (restructure_orphan all kept F) ?_
  intro s hs s2 hr
  refine ⟨hr.1, fun hsp => ?_⟩
  have hns : ¬ HasSurvivor (buildParentMap all) F (kept.map RSpan.sid) s.sid := by
    rintro ⟨a, hga, p, hp, hrtg⟩
    have hpg := buildParentMap_pget all hnda s (hsub s hs)
    simp only [hsp] at hpg
    by_cases hr0 : root = 0
    · rw [if_pos hr0] at hpg
      rw [hpg] at hp
      cases hp
    · rw [if_neg hr0] at hpg
      rw [hpg] at hp
      injection hp with hp2
      subst hp2
      have := rtg_pstep_stuck (buildParentMap all) root a hrootmap hrtg
      subst this
      exact hga.2.1 hrootF
  rw [hr.2 hns, hsp]

theorem restructure_filtered_root_children_amended_witness :
    ((([{ sid := 2, parent := none, name := "internal.noise",
          startTime := none, endTime := none, attributes := [], links := [] },
        { sid := 3, parent := some 2, name := "leaf", startTime := none,
          endTime := none, attributes := [], links := [] }] :
          List RSpan).map RSpan.sid).Nodup ∧ (2 : Nat) ∈ ([2] : List Nat)) ∧
    List.Forall₂ (fun (s s2 : RSpan) => s2.sid = s.sid ∧
      (s.parent = some 2 → s2.parent = some 2))
      [{ sid := 3, parent := some 2, name := "leaf", startTime := none,
         endTime := none, attributes := [], links := [] }]
      (restructure_trace_spans
        [{ sid := 2, parent := none, name := "internal.noise",
           startTime := none, endTime := none, attributes := [], links := [] },
         { sid := 3, parent := some 2, name := "leaf", startTime := none,
           endTime := none, attributes := [], links := [] }]
        [{ sid := 3, parent := some 2, name := "leaf", startTime := none,
           endTime := none, attributes := [], links := [] }]
        [2]) := by
  refine ⟨⟨by decide, by decide⟩, ?_⟩
  exact restructure_filtered_root_children_amended
    [{ sid := 2, parent := none, name := "internal.noise",
       startTime := none, endTime := none, attributes := [], links := [] },
     { sid := 3, parent := some 2, name := "leaf", startTime := none,
       endTime := none, attributes := [], links := [] }]
    [{ sid := 3, parent := some 2, name := "leaf", startTime := none,
       endTime := none, attributes := [], links := [] }]
    [2] 2
    { sid := 2, parent := none, name := "internal.noise",
      startTime := none, endTime := none, attributes := [], links := [] }
    (by decide) (by decide) (by decide) (by decide) (by decide) (by decide)

/-- C4 counterexample: with a filtered root (id 2) and one kept child
(id 3), the claim says the child ends up with no effective parent; in fact
the child keeps parent 2. -/
theorem restructure_root_children_counterexample :
    ¬ (∀ s2 ∈ restructure_trace_spans
        [{ sid := 2, parent := none, name := "internal.noise",
           startTime := none, endTime := none, attributes := [], links := [] },
         { sid := 4, parent := some 2, name := "child", startTime := none,
           endTime := none, attributes := [], links := [] }]
        [{ sid := 4, parent := some 2, name := "child", startTime := none,
           endTime := none, attributes := [], links := [] }]
        [2],
        s2.parent = none) := by decide

theorem restructure_eq_loop (all L : List RSpan) (F : List Nat)
    (hF : F ≠ []) :
    restructure_trace_spans all L F
      = (restructureLoop F L 10 L (buildParentMap all)).1 := by
  unfold restructure_trace_spans restructureFull
  rw [if_neg hF, if_neg hF]

/-- C5 (confirmed): re-running restructuring on the output of a first run,
with the same filtered-id set and the same full-batch parent information
(a batch all2 whose parent map equals the parent map left by the first
run, which is what rebuilding the map from the mutated batch produces),
changes nothing: the second run returns its input kept set unchanged, so
no parent is rewritten, no link is appended and no attribute is added. -/
theorem restructure_idempotent (all all2 kept : List RSpan) (F : List Nat)
    (hA : ∀ s ∈ kept, s.hasParentAttr = true)
    (hnd : (kept.map RSpan.sid).Nodup)
    (hmap2 : buildParentMap all2 = (restructureFull all kept F).2) :
    restructure_trace_spans all2 (restructure_trace_spans all kept F) F
      = restructure_trace_spans all kept F := by
  by_cases hF : F = []
  · subst hF
    unfold restructure_trace_spans
    simp
  · have hspec := restructureFull_spec all kept F hF hA hnd
    have hout1 : restructure_trace_spans all kept F
        = (runPass F kept kept (buildParentMap all)).1 := by
      unfold restructure_trace_spans
      rw [if_neg hF]
      exact hspec.1
    have hmfin : buildParentMap all2
        = (runPass F kept kept (buildParentMap all)).2.1 := by
      rw [hmap2, hspec.2]
    have hst : ∀ s2 ∈ restructure_trace_spans all kept F,
        processSpan F kept s2 (buildParentMap all2)
          = (s2, buildParentMap all2, 0) := by
      intro s2 hs2
      rw [hmfin]
      exact runPass_establishes F kept kept (buildParentMap all) hA hnd s2
        (hout1 ▸ hs2)
    have hsids : (restructure_trace_spans all kept F).map RSpan.sid
        = kept.map RSpan.sid := by
      rw [hout1]
      exact runPass_sids F kept kept _
    have hst2 : ∀ s2 ∈ restructure_trace_spans all kept F,
        processSpan F (restructure_trace_spans all kept F) s2
          (buildParentMap all2) = (s2, buildParentMap all2, 0) :=
      fun s2 hs2 =>
        stableSpan_any_k0 F kept (restructure_trace_spans all kept F)
          hsids.symm s2 _ (hst s2 hs2)
    have hloop := restructureLoop_stable F (restructure_trace_spans all kept F)
      10 (by omega) (restructure_trace_spans all kept F)
      (buildParentMap all2) hst2
    rw [restructure_eq_loop all2 (restructure_trace_spans all kept F) F hF,
      hloop]

theorem restructure_idempotent_witness :
    (buildParentMap
        [{ sid := 1, parent := none, name := "root", startTime := none,
           endTime := none, attributes := [], links := [] },
         { sid := 2, parent := some 1, name := "internal.noise",
           startTime := none, endTime := none, attributes := [], links := [] },
         { sid := 3, parent := some 1, name := "leaf", startTime := none,
           endTime := none, attributes := [], links := [] }]
      = (restructureFull
          [{ sid := 1, parent := none, name := "root", startTime := none,
             endTime := none, attributes := [], links := [] },
           { sid := 2, parent := some 1, name := "internal.noise",
             startTime := none, endTime := none, attributes := [], links := [] },
           { sid := 3, parent := some 2, name := "leaf", startTime := none,
             endTime := none, attributes := [], links := [] }]
          [{ sid := 1, parent := none, name := "root", startTime := none,
             endTime := none, attributes := [], links := [] },
           { sid := 3, parent := some 2, name := "leaf", startTime := none,
             endTime := none, attributes := [], links := [] }]
          [2]).2) ∧
    restructure_trace_spans
      [{ sid := 1, parent := none, name := "root", startTime := none,
         endTime := none, attributes := [], links := [] },
       { sid := 2, parent := some 1, name := "internal.noise",
         startTime := none, endTime := none, attributes := [], links := [] },
       { sid := 3, parent := some 1, name := "leaf", startTime := none,
         endTime := none, attributes := [], links := [] }]
      (restructure_trace_spans
        [{ sid := 1, parent := none, name := "root", startTime := none,
           endTime := none, attributes := [], links := [] },
         { sid := 2, parent := some 1, name := "internal.noise",
           startTime := none, endTime := none, attributes := [], links := [] },
         { sid := 3, parent := some 2, name := "leaf", startTime := none,
           endTime := none, attributes := [], links := [] }]
        [{ sid := 1, parent := none, name := "root", startTime := none,
           endTime := none, attributes := [], links := [] },
         { sid := 3, parent := some 2, name := "leaf", startTime := none,
           endTime := none, attributes := [], links := [] }]
        [2])
      [2]
      = restructure_trace_spans
        [{ sid := 1, parent := none, name := "root", startTime := none,
           endTime := none, attributes := [], links := [] },
         { sid := 2, parent := some 1, name := "internal.noise",
           startTime := none, endTime := none, attributes := [], links := [] },
         { sid := 3, parent := some 2, name := "leaf", startTime := none,
           endTime := none, attributes := [], links := [] }]
        [{ sid := 1, parent := none, name := "root", startTime := none,
           endTime := none, attributes := [], links := [] },
         { sid := 3, parent := some 2, name := "leaf", startTime := none,
           endTime := none, attributes := [], links := [] }]
        [2] := by
  refine ⟨by decide, ?_⟩
  exact restructure_idempotent
    [{ sid := 1, parent := none, name := "root", startTime := none,
       endTime := none, attributes := [], links := [] },
     { sid := 2, parent := some 1, name := "internal.noise",
       startTime := none, endTime := none, attributes := [], links := [] },
     { sid := 3, parent := some 2, name := "leaf", startTime := none,
       endTime := none, attributes := [], links := [] }]
    [{ sid := 1, parent := none, name := "root", startTime := none,
       endTime := none, attributes := [], links := [] },
     { sid := 2, parent := some 1, name := "internal.noise",
       startTime := none, endTime := none, attributes := [], links := [] },
     { sid := 3, parent := some 1, name := "leaf", startTime := none,
       endTime := none, attributes := [], links := [] }]
    [{ sid := 1, parent := none, name := "root", startTime := none,
       endTime := none, attributes := [], links := [] },
     { sid := 3, parent := some 2, name := "leaf", startTime := none,
       endTime := none, attributes := [], links := [] }]
    [2] (by decide) (by decide) (by decide)

/- ===== Correctness of the descendant search (subtree removal) ===== -/

theorem mem_pget_of_nodup (m : PMap) (hknd : (pkeys m).Nodup) (k v : Nat)
    (h : (k, v) ∈ m) : pget m k = some v := by
  induction m with
  | nil => simp at h
  | cons e rest ih =>
    simp only [pkeys, List.map_cons, List.nodup_cons] at hknd
    rcases List.mem_cons.mp h with rfl | hmem
    · simp [pget]
    · have hke : e.1 ≠ k := by
        intro he
        exact hknd.1 (he ▸ List.mem_map.mpr ⟨(k, v), hmem, rfl⟩)
      simp only [pget, if_neg hke]
      exact ih hknd.2 hmem

theorem pkeys_pset_mem (m : PMap) (k v : Nat) (h : k ∈ pkeys m) :
    pkeys (pset m k v) = pkeys m := by
  induction m with
  | nil => simp [pkeys] at h
  | cons e rest ih =>
    by_cases he : e.1 = k
    · simp [pset, he, pkeys]
    · have h2 : k ∈ pkeys rest := by
        simp [pkeys] at h ⊢
        rcases h with h | h
        · exact absurd h.symm (by simpa using he)
        · exact h
      show pkeys (if e.1 = k then (k, v) :: rest else e :: pset rest k v)
        = pkeys (e :: rest)
      rw [if_neg he]
      show e.1 :: pkeys (pset rest k v) = e.1 :: pkeys rest
      rw [ih h2]

theorem pkeys_pset_not_mem (m : PMap) (k v : Nat) (h : k ∉ pkeys m) :
    pkeys (pset m k v) = pkeys m ++ [k] := by
  induction m with
  | nil => simp [pset, pkeys]
  | cons e rest ih =>
    have hek : e.1 ≠ k := by
      intro he
      exact h (by simp [pkeys, he])
    have h2 : k ∉ pkeys rest := by
      intro hk
      exact h (by simp [pkeys] at hk ⊢; exact Or.inr hk)
    show pkeys (if e.1 = k then (k, v) :: rest else e :: pset rest k v)
      = pkeys (e :: rest) ++ [k]
    rw [if_neg hek]
    show e.1 :: pkeys (pset rest k v) = (e.1 :: pkeys rest) ++ [k]
    rw [ih h2]
    rfl

theorem buildParentMap_keys_nodup (spans : List RSpan) :
    (pkeys (buildParentMap spans)).Nodup := by
  suffices h : ∀ acc : PMap, (pkeys acc).Nodup →
      (pkeys (spans.foldl (fun m span =>
        match span.parent with
        | some p => if p ≠ 0 then pset m span.sid p else m
        | none => m) acc)).Nodup by
    exact h [] (by simp [pkeys])
  induction spans with
  | nil => intro acc hacc; exact hacc
  | cons t rest ih =>
    intro acc hacc
    simp only [List.foldl_cons]
    apply ih
    rcases t.parent with _ | p
    · exact hacc
    · by_cases hp : p = 0
      · simp only [hp, ne_eq, not_true_eq_false, if_false]
        exact hacc
      · simp only [hp, ne_eq, not_false_iff, if_true]
        by_cases hk : t.sid ∈ pkeys acc
        · rw [pkeys_pset_mem acc t.sid p hk]
          exact hacc
        · rw [pkeys_pset_not_mem acc t.sid p hk]
          simp [List.nodup_append, hacc, hk]

theorem collectChildrenAux_desc (cur : Nat) :
    ∀ (ms : List (Nat × Nat)) (desc : List Nat),
      (collectChildrenAux cur ms desc).1
        = desc ++ (collectChildrenAux cur ms desc).2 := by
  intro ms
  induction ms with
  | nil => intro desc; simp [collectChildrenAux]
  | cons e ms ih =>
    intro desc
    by_cases hc : e.2 = cur ∧ e.1 ∉ desc
    · simp only [collectChildrenAux, if_pos hc]
      rw [ih (desc ++ [e.1])]
      simp
    · simp only [collectChildrenAux, if_neg hc]
      exact ih desc

theorem collectChildrenAux_adds (cur : Nat) :
    ∀ (ms : List (Nat × Nat)) (desc : List Nat),
      ∀ x ∈ (collectChildrenAux cur ms desc).2,
        (x, cur) ∈ ms ∧ x ∉ desc := by
  intro ms
  induction ms with
  | nil => intro desc x hx; simp [collectChildrenAux] at hx
  | cons e ms ih =>
    intro desc x hx
    by_cases hc : e.2 = cur ∧ e.1 ∉ desc
    · simp only [collectChildrenAux, if_pos hc] at hx
      rcases List.mem_cons.mp hx with rfl | hmem
      · refine ⟨?_, hc.2⟩
        have he2 : e = (e.1, cur) := by
          rcases e with ⟨a, b⟩
          simp only at hc ⊢
          rw [hc.1]
        rw [← he2]
        exact List.mem_cons_self _ _
      · rcases ih (desc ++ [e.1]) x hmem with ⟨h1, h2⟩
        exact ⟨List.mem_cons_of_mem _ h1,
          fun hd => h2 (List.mem_append_left _ hd)⟩
    · simp only [collectChildrenAux, if_neg hc] at hx
      rcases ih desc x hx with ⟨h1, h2⟩
      exact ⟨List.mem_cons_of_mem _ h1, h2⟩

theorem collectChildrenAux_complete (cur : Nat) :
    ∀ (ms : List (Nat × Nat)) (desc : List Nat),
      ∀ e ∈ ms, e.2 = cur → e.1 ∈ (collectChildrenAux cur ms desc).1 := by
  intro ms
  induction ms with
  | nil => intro desc e he; simp at he
  | cons e2 ms ih =>
    intro desc e he hcur
    rcases List.mem_cons.mp he with rfl | hmem
    · by_cases hd : e.1 ∈ desc
      · have hsub : desc ⊆ (collectChildrenAux cur (e :: ms) desc).1 := by
          rw [collectChildrenAux_desc]
          exact List.subset_append_left _ _
        exact hsub hd
      · have hcond : e.2 = cur ∧ e.1 ∉ desc := ⟨hcur, hd⟩
        simp only [collectChildrenAux, if_pos hcond]
        have hsub : desc ++ [e.1]
            ⊆ (collectChildrenAux cur ms (desc ++ [e.1])).1 := by
          rw [collectChildrenAux_desc]
          exact List.subset_append_left _ _
        exact hsub (show e.1 ∈ desc ++ [e.1] by simp)
    · by_cases hc : e2.2 = cur ∧ e2.1 ∉ desc
      · simp only [collectChildrenAux, if_pos hc]
        exact ih (desc ++ [e2.1]) e hmem hcur
      · simp only [collectChildrenAux, if_neg hc]
        exact ih desc e hmem hcur

theorem collectChildrenAux_nodup (cur : Nat) :
    ∀ (ms : List (Nat × Nat)) (desc : List Nat),
      (collectChildrenAux cur ms desc).2.Nodup := by
  intro ms
  induction ms with
  | nil => intro desc; simp [collectChildrenAux]
  | cons e ms ih =>
    intro desc
    by_cases hc : e.2 = cur ∧ e.1 ∉ desc
    · simp only [collectChildrenAux, if_pos hc]
      refine List.nodup_cons.mpr ⟨?_, ih (desc ++ [e.1])⟩
      intro hmem
      rcases collectChildrenAux_adds cur ms (desc ++ [e.1]) e.1 hmem with ⟨_, h2⟩
      exact h2 (by simp)
    · simp only [collectChildrenAux, if_neg hc]
      exact ih desc

theorem bfsLoop_spec (m : PMap) (hknd : (pkeys m).Nodup) (Exc : List Nat) :
    ∀ (fuel : Nat) (stack desc : List Nat),
      stack.length + ((pkeys m).toFinset \ desc.toFinset).card < fuel →
      (∀ t ∈ stack, t ∈ desc) →
      (∀ d ∈ desc, d ∈ Exc ∨ d ∈ stack ∨ ∀ c, pget m c = some d → c ∈ desc) →
      (∀ x ∈ desc, x ∈ bfsLoop m fuel stack desc) ∧
      (∀ d ∈ bfsLoop m fuel stack desc,
        d ∈ Exc ∨ ∀ c, pget m c = some d → c ∈ bfsLoop m fuel stack desc) ∧
      (∀ x ∈ bfsLoop m fuel stack desc,
        x ∈ desc ∨ ∃ t ∈ stack, DescendantOf m t x) := by
  intro fuel
  induction fuel with
  | zero =>
    intro stack desc hf
    omega
  | succ fuel ih =>
    intro stack desc hf hsd hcl
    rcases stack with _ | ⟨c, rest⟩
    · simp only [bfsLoop]
      refine ⟨fun x hx => hx, ?_, fun x hx => Or.inl hx⟩
      intro d hd
      rcases hcl d hd with h | h | h
      · exact Or.inl h
      · simp at h
      · exact Or.inr h
    · simp only [bfsLoop]
      have hdesc : (collectChildren m c desc).1
          = desc ++ (collectChildren m c desc).2 :=
        collectChildrenAux_desc c m desc
      have hadds : ∀ x ∈ (collectChildren m c desc).2, (x, c) ∈ m ∧ x ∉ desc :=
        collectChildrenAux_adds c m desc
      have haddsget : ∀ x ∈ (collectChildren m c desc).2, pget m x = some c :=
        fun x hx => mem_pget_of_nodup m hknd x c (hadds x hx).1
      have haddnodup : (collectChildren m c desc).2.Nodup :=
        collectChildrenAux_nodup c m desc
      have hcomplete : ∀ x, pget m x = some c → x ∈ (collectChildren m c desc).1 :=
        fun x hx => collectChildrenAux_complete c m desc (x, c)
          (pget_entry_mem m x c hx) rfl
      have haddskeys : ∀ x ∈ (collectChildren m c desc).2, x ∈ pkeys m :=
        fun x hx => List.mem_map.mpr ⟨(x, c), (hadds x hx).1, rfl⟩
      have hmu : ((collectChildren m c desc).2.reverse ++ rest).length
          + ((pkeys m).toFinset \ (collectChildren m c desc).1.toFinset).card
          < fuel := by
        have hsubadds : (collectChildren m c desc).2.toFinset
            ⊆ (pkeys m).toFinset \ desc.toFinset := by
          intro x hx
          rw [List.mem_toFinset] at hx
          rw [Finset.mem_sdiff, List.mem_toFinset, List.mem_toFinset]
          exact ⟨haddskeys x hx, (hadds x hx).2⟩
        have hsd2 : (pkeys m).toFinset \ (collectChildren m c desc).1.toFinset
            = ((pkeys m).toFinset \ desc.toFinset)
              \ (collectChildren m c desc).2.toFinset := by
          rw [hdesc]
          ext y
          simp only [Finset.mem_sdiff, List.mem_toFinset, List.mem_append]
          tauto
        have hcard2 := Finset.card_sdiff hsubadds
        have hcardle := Finset.card_le_card hsubadds
        have htfc : (collectChildren m c desc).2.toFinset.card
            = (collectChildren m c desc).2.length :=
          List.toFinset_card_of_nodup haddnodup
        rw [hsd2, hcard2, htfc]
        simp only [List.length_append, List.length_reverse]
        simp only [List.length_cons] at hf
        omega
      have hsd2 : ∀ t ∈ (collectChildren m c desc).2.reverse ++ rest,
          t ∈ (collectChildren m c desc).1 := by
        intro t ht
        rcases List.mem_append.mp ht with ht | ht
        · rw [List.mem_reverse] at ht
          rw [hdesc]
          exact List.mem_append_right _ ht
        · rw [hdesc]
          exact List.mem_append_left _ (hsd t (List.mem_cons_of_mem c ht))
      have hcl2 : ∀ d ∈ (collectChildren m c desc).1,
          d ∈ Exc ∨ d ∈ (collectChildren m c desc).2.reverse ++ rest ∨
          ∀ ch, pget m ch = some d → ch ∈ (collectChildren m c desc).1 := by
        intro d hd
        rw [hdesc] at hd
        rcases List.mem_append.mp hd with hd | hd
        · rcases hcl d hd with h | h | h
          · exact Or.inl h
          · rcases List.mem_cons.mp h with rfl | h
            · exact Or.inr (Or.inr (fun ch hch => hcomplete ch hch))
            · exact Or.inr (Or.inl (List.mem_append_right _ h))
          · refine Or.inr (Or.inr (fun ch hch => ?_))
            rw [hdesc]
            exact List.mem_append_left _ (h ch hch)
        · exact Or.inr (Or.inl (List.mem_append_left _
            (List.mem_reverse.mpr hd)))
      rcases ih ((collectChildren m c desc).2.reverse ++ rest)
        (collectChildren m c desc).1 hmu hsd2 hcl2 with ⟨ih1, ih2, ih3⟩
      refine ⟨?_, ih2, ?_⟩
      · intro x hx
        apply ih1
        rw [hdesc]
        exact List.mem_append_left _ hx
      · intro x hx
        rcases ih3 x hx with hx2 | ⟨t, ht, hdes⟩
        · rw [hdesc] at hx2
          rcases List.mem_append.mp hx2 with h | h
          · exact Or.inl h
          · exact Or.inr ⟨c, List.mem_cons_self c rest,
              Relation.TransGen.single (haddsget x h)⟩
        · rcases List.mem_append.mp ht with ht | ht
          · rw [List.mem_reverse] at ht
            exact Or.inr ⟨c, List.mem_cons_self c rest,
              Relation.TransGen.trans
                (Relation.TransGen.single (haddsget t ht)) hdes⟩
          · exact Or.inr ⟨t, List.mem_cons_of_mem c ht, hdes⟩

theorem addAux_spec (m : PMap) (hknd : (pkeys m).Nodup) (Exc : List Nat)
    (fid : Nat) :
    ∀ (ms : List (Nat × Nat)) (desc : List Nat),
      (∀ e ∈ ms, e ∈ m) →
      (∀ d ∈ desc, d ∈ Exc ∨ d = fid ∨ ∀ c, pget m c = some d → c ∈ desc) →
      (∀ x ∈ desc, x ∈ addDirectChildrenAux m fid ms desc) ∧
      (∀ d ∈ addDirectChildrenAux m fid ms desc,
        d ∈ Exc ∨ d = fid ∨ ∀ c, pget m c = some d →
          c ∈ addDirectChildrenAux m fid ms desc) ∧
      (∀ e ∈ ms, e.2 = fid → e.1 ∈ addDirectChildrenAux m fid ms desc) ∧
      (∀ x ∈ addDirectChildrenAux m fid ms desc, x ∈ desc ∨
        DescendantOf m fid x) := by
  intro ms
  induction ms with
  | nil =>
    intro desc _ hcl
    simp only [addDirectChildrenAux]
    refine ⟨fun x hx => hx, hcl, ?_, fun x hx => Or.inl hx⟩
    intro e he
    simp at he
  | cons e ms ih =>
    intro desc hsub hcl
    by_cases hef : e.2 = fid
    · simp only [addDirectChildrenAux, if_pos hef]
      have hchild : pget m e.1 = some fid := by
        apply mem_pget_of_nodup m hknd
        have := hsub e (List.mem_cons_self e ms)
        rw [show ((e.1 : Nat), fid) = e from by rw [← hef]]
        exact this
      have hd1 : e.1 ∈ (if e.1 ∈ desc then desc else desc ++ [e.1]) := by
        by_cases hd : e.1 ∈ desc
        · rw [if_pos hd]
          exact hd
        · rw [if_neg hd]
          simp
      have hdsub : ∀ x ∈ desc, x ∈ (if e.1 ∈ desc then desc
          else desc ++ [e.1]) := by
        intro x hx
        by_cases hd : e.1 ∈ desc
        · rw [if_pos hd]
          exact hx
        · rw [if_neg hd]
          exact List.mem_append_left _ hx
      have hbfs := bfsLoop_spec m hknd (fid :: Exc) (m.length + 2) [e.1]
        (if e.1 ∈ desc then desc else desc ++ [e.1]) ?hfuel ?hstk ?hcl1
      case hfuel =>
        have h1 : ((pkeys m).toFinset
            \ (if e.1 ∈ desc then desc else desc ++ [e.1]).toFinset).card
            ≤ (pkeys m).toFinset.card :=
          Finset.card_le_card (Finset.sdiff_subset)
        have h2 : (pkeys m).toFinset.card ≤ (pkeys m).length :=
          List.toFinset_card_le _
        have h3 : (pkeys m).length = m.length := by simp [pkeys]
        simp only [List.length_cons, List.length_nil]
        omega
      case hstk =>
        intro t ht
        simp at ht
        rw [ht]
        exact hd1
      case hcl1 =>
        intro d hd
        by_cases hde : d = e.1
        · exact Or.inr (Or.inl (by simp [hde]))
        · have hdd : d ∈ desc := by
            by_cases hmem : e.1 ∈ desc
            · rw [if_pos hmem] at hd
              exact hd
            · rw [if_neg hmem] at hd
              rcases List.mem_append.mp hd with h | h
              · exact h
              · simp at h
                exact absurd h hde
          rcases hcl d hdd with h | h | h
          · exact Or.inl (List.mem_cons_of_mem _ h)
          · exact Or.inl (by rw [h]; exact List.mem_cons_self _ _)
          · exact Or.inr (Or.inr (fun c hc => hdsub c (h c hc)))
      rcases hbfs with ⟨hb1, hb2, hb3⟩
      have hih := ih (bfsLoop m (m.length + 2) [e.1]
          (if e.1 ∈ desc then desc else desc ++ [e.1]))
        (fun e2 he2 => hsub e2 (List.mem_cons_of_mem e he2)) ?hclR
      case hclR =>
        intro d hd
        rcases hb2 d hd with h | h
        · rcases List.mem_cons.mp h with h | h
          · exact Or.inr (Or.inl h)
          · exact Or.inl h
        · exact Or.inr (Or.inr h)
      rcases hih with ⟨hi1, hi2, hi3, hi4⟩
      refine ⟨?_, hi2, ?_, ?_⟩
      · intro x hx
        exact hi1 x (hb1 x (hdsub x hx))
      · intro e2 he2 hfid
        rcases List.mem_cons.mp he2 with rfl | hmem
        · exact hi1 e2.1 (hb1 e2.1 hd1)
        · exact hi3 e2 hmem hfid
      · intro x hx
        rcases hi4 x hx with hx2 | hdes
        · rcases hb3 x hx2 with hx3 | ⟨t, ht, hdes⟩
          · by_cases hd : e.1 ∈ desc
            · rw [if_pos hd] at hx3
              exact Or.inl hx3
            · rw [if_neg hd] at hx3
              rcases List.mem_append.mp hx3 with h | h
              · exact Or.inl h
              · simp at h
                exact Or.inr (h ▸ Relation.TransGen.single hchild)
          · simp at ht
            rw [ht] at hdes
            exact Or.inr (Relation.TransGen.trans
              (Relation.TransGen.single hchild) hdes)
        · exact Or.inr hdes
    · simp only [addDirectChildrenAux, if_neg hef]
      have hih := ih desc (fun e2 he2 => hsub e2 (List.mem_cons_of_mem e he2))
        hcl
      rcases hih with ⟨hi1, hi2, hi3, hi4⟩
      refine ⟨hi1, hi2, ?_, hi4⟩
      intro e2 he2 hfid
      rcases List.mem_cons.mp he2 with rfl | hmem
      · exact absurd hfid hef
      · exact hi3 e2 hmem hfid

theorem descFilterAux_spec (m : PMap) (hknd : (pkeys m).Nodup) :
    ∀ (fs : List Nat) (desc : List Nat),
      (∀ d ∈ desc, d ∈ fs ∨ ∀ c, pget m c = some d → c ∈ desc) →
      (∀ x ∈ desc, x ∈ descFilterAux m fs desc) ∧
      (∀ d ∈ descFilterAux m fs desc,
        ∀ c, pget m c = some d → c ∈ descFilterAux m fs desc) ∧
      (∀ x ∈ descFilterAux m fs desc,
        x ∈ desc ∨ ∃ f ∈ fs, DescendantOf m f x) := by
  intro fs
  induction fs with
  | nil =>
    intro desc hcl
    simp only [descFilterAux]
    refine ⟨fun x hx => hx, ?_, fun x hx => Or.inl hx⟩
    intro d hd
    rcases hcl d hd with h | h
    · simp at h
    · exact h
  | cons fid fs ih =>
    intro desc hcl
    simp only [descFilterAux]
    have ha := addAux_spec m hknd fs fid m desc (fun e he => he) ?hcl1
    case hcl1 =>
      intro d hd
      rcases hcl d hd with h | h
      · rcases List.mem_cons.mp h with rfl | h
        · exact Or.inr (Or.inl rfl)
        · exact Or.inl h
      · exact Or.inr (Or.inr h)
    rcases ha with ⟨ha1, ha2, ha3, ha4⟩
    have hih := ih (addDirectChildrenAux m fid m desc) ?hclR
    case hclR =>
      intro d hd
      rcases ha2 d hd with h | h | h
      · exact Or.inl h
      · refine Or.inr (fun c hc => ?_)
        rw [h] at hc
        exact ha3 (c, fid) (pget_entry_mem m c fid hc) rfl
      · exact Or.inr h
    rcases hih with ⟨hi1, hi2, hi3⟩
    refine ⟨?_, hi2, ?_⟩
    · intro x hx
      exact hi1 x (ha1 x hx)
    · intro x hx
      rcases hi3 x hx with hx2 | ⟨f, hf, hdes⟩
      · rcases ha4 x hx2 with h | h
        · exact Or.inl h
        · exact Or.inr ⟨fid, List.mem_cons_self _ _, h⟩
      · exact Or.inr ⟨f, List.mem_cons_of_mem _ hf, hdes⟩

theorem descendants_to_filter_spec (m : PMap) (hknd : (pkeys m).Nodup)
    (F : List Nat) (x : Nat) :
    x ∈ descendants_to_filter m F ↔
      x ∈ F ∨ ∃ f ∈ F, DescendantOf m f x := by
  unfold descendants_to_filter
  rcases descFilterAux_spec m hknd F F (fun d hd => Or.inl hd) with ⟨h1, h2, h3⟩
  constructor
  · intro hx
    exact h3 x hx
  · rintro (hx | ⟨f, hf, hdes⟩)
    · exact h1 x hx
    · induction hdes with
      | single h => exact h2 f (h1 f hf) _ h
      | tail hseg hstep ihd => exact h2 _ ihd _ hstep

/-- C3 (confirmed): with reparenting disabled, the span set forwarded to
the sink is a subsequence of the kept spans in which exactly the kept spans
with a filtered ancestor at some depth of the parent chain are removed:
a kept span is forwarded if and only if no filtered span id lies above it
in the full parent map. -/
theorem export_subtree_removal (patterns : List (String → Bool))
    (reparentEnv : Option String) (spans : List RSpan)
    (hdis : reparent_enabled_check reparentEnv = false)
    (hnd : (spans.map RSpan.sid).Nodup) :
    (processedSpans patterns reparentEnv spans).Sublist
      (spans.filter (fun s => !(should_filter_span s patterns))) ∧
    ∀ s ∈ spans.filter (fun s => !(should_filter_span s patterns)),
      (s ∈ processedSpans patterns reparentEnv spans ↔
        ¬ ∃ f ∈ (spans.filter (fun s => should_filter_span s patterns)).map
            RSpan.sid,
          DescendantOf (buildParentMap spans) f s.sid) := by
  by_cases hF : (spans.filter (fun s => should_filter_span s patterns)).map
      RSpan.sid = []
  · have hps : processedSpans patterns reparentEnv spans
        = spans.filter (fun s => !(should_filter_span s patterns)) := by
      unfold processedSpans
      rw [if_pos hF]
    rw [hps]
    refine ⟨List.Sublist.refl _, ?_⟩
    intro s hs
    constructor
    · intro _
      rintro ⟨f, hf, _⟩
      rw [hF] at hf
      simp at hf
    · intro _
      exact hs
  · have hps : processedSpans patterns reparentEnv spans
        = (spans.filter (fun s => !(should_filter_span s patterns))).filter
            (fun s => !((descendants_to_filter (buildParentMap spans)
              ((spans.filter (fun s => should_filter_span s patterns)).map
                RSpan.sid)).contains s.sid)) := by
      unfold processedSpans
      rw [if_neg hF]
      rw [if_pos (by rw [hdis]; rfl)]
    rw [hps]
    refine ⟨List.filter_sublist _, ?_⟩
    intro s hs
    have hsidF : s.sid ∉ (spans.filter
        (fun s => should_filter_span s patterns)).map RSpan.sid := by
      intro hmem
      rcases List.mem_map.mp hmem with ⟨t, ht, hts⟩
      rcases List.mem_filter.mp ht with ⟨htsp, htf⟩
      rcases List.mem_filter.mp hs with ⟨hssp, hsf⟩
      have hst : t = s := List.inj_on_of_nodup_map hnd htsp hssp hts
      rw [hst] at htf
      simp at hsf
      rw [htf] at hsf
      cases hsf
    have hdesc := descendants_to_filter_spec (buildParentMap spans)
      (buildParentMap_keys_nodup spans)
      ((spans.filter (fun s => should_filter_span s patterns)).map RSpan.sid)
      s.sid
    constructor
    · intro hmem hex
      rcases List.mem_filter.mp hmem with ⟨_, hnotin⟩
      simp only [Bool.not_eq_true'] at hnotin
      simp at hnotin
      rcases hex with ⟨f, hf, hdes⟩
      exact hnotin (hdesc.mpr (Or.inr ⟨f, hf, hdes⟩))
    · intro hnotex
      rw [List.mem_filter]
      refine ⟨hs, ?_⟩
      have hnin : s.sid ∉ descendants_to_filter (buildParentMap spans)
          ((spans.filter (fun s => should_filter_span s patterns)).map
            RSpan.sid) := by
        intro hin
        rcases hdesc.mp hin with h | h
        · exact hsidF h
        · exact hnotex h
      simp [hnin]

theorem export_subtree_removal_witness :
    (reparent_enabled_check (some "false") = false ∧
      (([{ sid := 1, parent := none, name := "root", startTime := none,
           endTime := none, attributes := [], links := [] },
         { sid := 2, parent := some 1, name := "internal.noise",
           startTime := none, endTime := none, attributes := [], links := [] },
         { sid := 3, parent := some 2, name := "leaf", startTime := none,
           endTime := none, attributes := [], links := [] }] :
          List RSpan).map RSpan.sid).Nodup) ∧
    (processedSpans [fun nm => nm == "internal.noise"] (some "false")
        [{ sid := 1, parent := none, name := "root", startTime := none,
           endTime := none, attributes := [], links := [] },
         { sid := 2, parent := some 1, name := "internal.noise",
           startTime := none, endTime := none, attributes := [], links := [] },
         { sid := 3, parent := some 2, name := "leaf", startTime := none,
           endTime := none, attributes := [], links := [] }]).Sublist
      ([{ sid := 1, parent := none, name := "root", startTime := none,
          endTime := none, attributes := [], links := [] },
        { sid := 2, parent := some 1, name := "internal.noise",
          startTime := none, endTime := none, attributes := [], links := [] },
        { sid := 3, parent := some 2, name := "leaf", startTime := none,
          endTime := none, attributes := [], links := [] }].filter
        (fun s => !(should_filter_span s [fun nm => nm == "internal.noise"]))) := by
  refine ⟨⟨by decide, by decide⟩, ?_⟩
  exact (export_subtree_removal [fun nm => nm == "internal.noise"]
    (some "false")
    [{ sid := 1, parent := none, name := "root", startTime := none,
       endTime := none, attributes := [], links := [] },
     { sid := 2, parent := some 1, name := "internal.noise",
       startTime := none, endTime := none, attributes := [], links := [] },
     { sid := 3, parent := some 2, name := "leaf", startTime := none,
       endTime := none, attributes := [], links := [] }]
    (by decide) (by decide)).1
